import Mathlib

/-!
# Amstrad image viewer: verification of `src/main.c`

A shallow embedding of the C source (SDCC / Z80 target, `int` is 16 bits,
`u8` is an unsigned byte, `u16` an unsigned 16-bit word, `i16` a signed one).

* machine integers are `Nat` / `Int` with explicit reductions modulo `2^8` and `2^16`;
* a `char` buffer is a `Buffer`: a size and a byte map, with bounds-checked accesses;
* every C loop is a function recursing on a `fuel` argument and returning `Option`
  (`none` = fuel exhausted or an access outside the buffer);
* calls to the platform library (drawing, keyboard scanning) are recorded as events
  or read from an explicit stream of keyboard snapshots.
-/

namespace Amstrad

/-! ## Machine arithmetic -/

/-- Conversion of a mathematical integer to `u8`. -/
def toU8 (i : Int) : Nat := (i % 256).toNat

/-- Conversion of a mathematical integer to `u16` (`unsigned int`). -/
def toU16 (i : Int) : Nat := (i % 65536).toNat

/-- Conversion of a mathematical integer to `i16` (`int`), two's complement. -/
def toI16 (i : Int) : Int := (i + 32768) % 65536 - 32768

/-- Multiplication in `unsigned int`. -/
def mulU16 (a b : Nat) : Nat := (a * b) % 65536

/-- Subtraction in `unsigned int`. -/
def subU16 (a b : Nat) : Nat := (a % 65536 + 65536 - b % 65536) % 65536

/-- Addition in `unsigned int`. -/
def addU16 (a b : Nat) : Nat := (a + b) % 65536

/-! ## Constants of `main.c` -/

def FNT_W : Nat := 3

def FNT_H : Nat := 8

def BG_COLOR : Nat := 1

/-! ## Character buffers -/

/-- A `char` array: `size` bytes, the byte at offset `i` being `byte i`. -/
structure Buffer where
  size : Nat
  byte : Nat → Nat

/-- Read of `buf[i]`; an access outside the array has no defined result. -/
def Buffer.load (buf : Buffer) (i : Nat) : Option Nat :=
  if i < buf.size then some (buf.byte i) else none

/-- Write `buf[i] = v`; an access outside the array has no defined result. -/
def Buffer.store (buf : Buffer) (i v : Nat) : Option Buffer :=
  if i < buf.size then some { buf with byte := fun j => if j = i then v else buf.byte j }
  else none

/-- The bytes of the C string starting at offset `i`: everything up to (not including)
the first zero byte, looking at no more than `fuel` bytes and staying inside the array. -/
def Buffer.cstringFrom (buf : Buffer) : Nat → Nat → List Nat
  | 0, _ => []
  | fuel + 1, i =>
    if i < buf.size ∧ buf.byte i ≠ 0 then buf.byte i :: buf.cstringFrom fuel (i + 1) else []

/-- The C string held at the start of the buffer. -/
def Buffer.cstring (buf : Buffer) : List Nat := buf.cstringFrom buf.size 0

/-! ## Generic functions -/

/-- Embedding of `i16 Abs(i16 number)`; `number *= -1` is an `i16` multiplication. -/
def Abs (number : Int) : Int :=
  if number < 0 then toI16 (number * -1) else number

/-- Loop of `Strlen`: `for (s = str; *s; ++s);`, `s` being an offset into `str`. -/
def StrlenLoop (str : Buffer) : Nat → Nat → Option Nat
  | 0, _ => none
  | fuel + 1, s =>
    match str.load s with
    | none => none
    | some c => if c ≠ 0 then StrlenLoop str fuel (s + 1) else some s

/-- Embedding of `u8 Strlen(const unsigned char *str)`: returns `(u8)(s - str)`. -/
def Strlen (fuel : Nat) (str : Buffer) : Option Nat :=
  (StrlenLoop str fuel 0).map (fun s => s % 256)

/-- The string literal indexed by `Itoa`, as character codes. -/
def itoaTable : List Nat :=
  "zyxwvutsrqponmlkjihgfedcba9876543210123456789abcdefghijklmnopqrstuvwxyz".toList.map Char.toNat

/-- The `do { ... } while (value);` loop of `Itoa`.
`value` is the `u16` argument, `base` the value of `base` converted to `unsigned int`,
`ptr` the offset of `ptr` from `result`.  Returns the last `tmp_value`, the final `ptr`
and the buffer. -/
def ItoaDigits (base : Nat) : Nat → Nat → Nat → Buffer → Option (Int × Nat × Buffer)
  | 0, _, _, _ => none
  | fuel + 1, value, ptr, buf =>
    let tmp_value : Int := toI16 value
    let value1 := value / base
    match itoaTable[addU16 35 (subU16 (toU16 tmp_value) (mulU16 value1 base))]? with
    | none => none
    | some c =>
      match buf.store ptr c with
      | none => none
      | some buf1 =>
        if value1 ≠ 0 then ItoaDigits base fuel value1 (ptr + 1) buf1
        else some (tmp_value, ptr + 1, buf1)

/-- The `while (ptr1 < ptr) { ... }` loop of `Itoa` (in-place reversal). -/
def ItoaReverse : Nat → Nat → Nat → Buffer → Option Buffer
  | 0, _, _, _ => none
  | fuel + 1, ptr1, ptr, buf =>
    if ptr1 < ptr then
      match buf.load ptr with
      | none => none
      | some tmp_char =>
        match buf.load ptr1 with
        | none => none
        | some c1 =>
          match buf.store ptr c1 with
          | none => none
          | some buf1 =>
            match buf1.store ptr1 tmp_char with
            | none => none
            | some buf2 => ItoaReverse fuel (ptr1 + 1) (ptr - 1) buf2
    else some buf

/-- Embedding of `char* Itoa(u16 value, char* result, int base)`.
The returned pointer is `result` itself; the function returns the buffer it points to. -/
def Itoa (fuel : Nat) (value : Nat) (result : Buffer) (base : Int) : Option Buffer :=
  if base < 2 ∨ base > 36 then
    result.store 0 0
  else
    match ItoaDigits (toU16 base) fuel value 0 result with
    | none => none
    | some (tmp_value, ptr, buf) =>
      let signed : Option (Nat × Buffer) :=
        if tmp_value < 0 then (buf.store ptr 45).map (fun b => (ptr + 1, b))
        else some (ptr, buf)
      match signed with
      | none => none
      | some (ptr, buf) =>
        match buf.store ptr 0 with
        | none => none
        | some buf => ItoaReverse fuel 0 (ptr - 1) buf

/-- State touched by `Interrupt`: its `static u8 nInt` and the number of calls of
`cpct_scanKeyboard_if` made so far. -/
structure InterruptState where
  nInt : Nat
  scans : Nat
  deriving DecidableEq, Repr

/-- Embedding of `void Interrupt()`. -/
def Interrupt (s : InterruptState) : InterruptState :=
  let nInt := (s.nInt + 1) % 256
  if nInt = 6 then { nInt := 0, scans := s.scans + 1 }
  else { nInt := nInt, scans := s.scans }

/-! ## Graphics -/

/-- Result of `cpct_getScreenPtr(CPCT_VMEM_START, x, y)`: the screen location designated
by the two `u8` coordinates (byte column, pixel row). -/
structure ScreenPtr where
  x : Nat
  y : Nat
  deriving DecidableEq, Repr

/-- Platform call `cpct_getScreenPtr(CPCT_VMEM_START, x, y)`; both arguments are `u8`. -/
def cpct_getScreenPtr (x y : Int) : ScreenPtr := ⟨toU8 x, toU8 y⟩

/-- Drawing calls issued to the platform library. -/
inductive DrawOp where
  /-- The call `cpct_drawSolidBox(ptr, cpct_px2byteM0(pen0, pen1), w, h)`. -/
  | solidBox (ptr : ScreenPtr) (pen0 pen1 w h : Nat)
  /-- The call `cpct_drawSpriteMaskedAlignedTable(g_font[glyph], ptr, w, h, g_maskTable)`. -/
  | spriteMasked (glyph : Int) (ptr : ScreenPtr) (w h : Nat)
  deriving DecidableEq, Repr

/-- Body of the drawing loops of `PrintNumber` and `PrintText` for one character `c`
at screen location `ptr`. -/
def drawGlyph (prevDel : Nat) (c : Nat) (ptr : ScreenPtr) : List DrawOp :=
  (if prevDel ≠ 0 then [DrawOp.solidBox ptr BG_COLOR BG_COLOR FNT_W FNT_H] else [])
    ++ [DrawOp.spriteMasked ((c : Int) - 48) ptr FNT_W FNT_H]

/-- The `while (nAux != '\0') { ... }` loop of `PrintNumber`. -/
def PrintNumberLoop (txt : Buffer) (zeros x y prevDel : Nat) :
    Nat → Nat → Nat → Option (List DrawOp)
  | 0, _, _ => none
  | fuel + 1, pos, nAux =>
    if nAux ≠ 0 then
      let ptr := cpct_getScreenPtr (((zeros : Int) + pos) * FNT_W + x) y
      let pos1 := (pos + 1) % 256
      match txt.load pos1 with
      | none => none
      | some nAux1 =>
        match PrintNumberLoop txt zeros x y prevDel fuel pos1 nAux1 with
        | none => none
        | some ops => some (drawGlyph prevDel nAux ptr ++ ops)
    else some []

/-- Embedding of `void PrintNumber(u16 num, u8 len, u8 x, u8 y, u8 prevDel)`: the list of
drawing calls it issues.  `stack` gives the bytes found in the uninitialised local array
`u8 txt[6]` on entry. -/
def PrintNumber (fuel : Nat) (stack : Nat → Nat) (num len x y prevDel : Nat) :
    Option (List DrawOp) :=
  match Itoa fuel num ⟨6, stack⟩ 10 with
  | none => none
  | some txt =>
    match Strlen fuel txt with
    | none => none
    | some n =>
      let zeros := toU8 ((len : Int) - n)
      match txt.load 0 with
      | none => none
      | some nAux => PrintNumberLoop txt zeros x y prevDel fuel 0 nAux

/-- The `while (car != '\0') { ... }` loop of `PrintText`. -/
def PrintTextLoop (txt : Buffer) (x y prevDel : Nat) : Nat → Nat → Nat → Option (List DrawOp)
  | 0, _, _ => none
  | fuel + 1, pos, car =>
    if car ≠ 0 then
      let ptr := cpct_getScreenPtr (((pos : Int) * FNT_W) + x) y
      let pos1 := (pos + 1) % 256
      match txt.load pos1 with
      | none => none
      | some car1 =>
        match PrintTextLoop txt x y prevDel fuel pos1 car1 with
        | none => none
        | some ops => some (drawGlyph prevDel car ptr ++ ops)
    else some []

/-- Embedding of `void PrintText(u8 txt[], u8 x, u8 y, u8 prevDel)`. -/
def PrintText (fuel : Nat) (txt : Buffer) (x y prevDel : Nat) : Option (List DrawOp) :=
  match txt.load 0 with
  | none => none
  | some car => PrintTextLoop txt x y prevDel fuel 0 car

/-! ## Keyboard -/

/-- Contents of `cpct_keyboardStatusBuffer`: the status byte of each of the 10 matrix rows.
A key is held when its bit is `0`. -/
abbrev Snapshot := Nat → Nat

/-- Read of `cpct_keyboardStatusBuffer[keys]` (a `u8`); the array has 10 entries. -/
def Snapshot.row (ks : Snapshot) (keys : Int) : Option Nat :=
  if 0 ≤ keys ∧ keys < 10 then some (ks keys.toNat % 256) else none

/-- The keyboard as the program sees it: how many matrix scans have been made and the
status buffer left by the latest one. -/
structure Keyboard where
  scans : Nat
  status : Snapshot

/-- Platform calls `cpct_scanKeyboard()` / `cpct_scanKeyboard_f()`: the status buffer is
refreshed with the next snapshot delivered by the hardware, `scan k` being the snapshot
seen by scan number `k`. -/
def cpct_scanKeyboard (scan : Nat → Snapshot) (kb : Keyboard) : Keyboard :=
  { scans := kb.scans + 1, status := scan kb.scans }

/-- Modelled from the spec: the platform query `cpct_isAnyKeyPressed()` ("is any key
pressed", operating on the snapshot) is true when some row of the status buffer differs
from `0xFF`, the value of a row with no key held. -/
def cpct_isAnyKeyPressed (ks : Snapshot) : Bool :=
  (List.range 10).any (fun r => ks r % 256 != 255)

/-- The loop `do { cpct_scanKeyboard(); } while (!cpct_isAnyKeyPressed());`. -/
def waitAnyKey (scan : Nat → Snapshot) : Nat → Keyboard → Option Keyboard
  | 0, _ => none
  | fuel + 1, kb =>
    let kb1 := cpct_scanKeyboard scan kb
    if !cpct_isAnyKeyPressed kb1.status then waitAnyKey scan fuel kb1 else some kb1

/-- The decoding loop `do { ... } while (--i);` of `ReturnKeyPressed`; `keys` is the offset
of the pointer `keys` from `cpct_keyboardStatusBuffer`.  The inner result is `some key`
when the loop executes its `return`, `none` when the loop ends. -/
def detectKey (ks : Snapshot) : Nat → Nat → Int → Option (Option Nat)
  | 0, _, _ => none
  | fuel + 1, i, keys =>
    match ks.row keys with
    | none => none
    | some b =>
      let keypressed := b ^^^ 0xFF
      if keypressed ≠ 0 then
        some (some (toU16 (((keypressed <<< 8) % 65536 : Nat) + ((i : Int) - 1))))
      else
        let keys1 := keys - 1
        let i1 := (i + 255) % 256
        if i1 ≠ 0 then detectKey ks fuel i1 keys1 else some none

/-- Embedding of `cpct_keyID ReturnKeyPressed()`: the key code returned and the keyboard
state on return. -/
def ReturnKeyPressed (scan : Nat → Snapshot) (fuel : Nat) (kb : Keyboard) :
    Option (Nat × Keyboard) :=
  match waitAnyKey scan fuel kb with
  | none => none
  | some kb1 =>
    match detectKey kb1.status fuel 10 9 with
    | none => none
    | some (some key) => some (key, kb1)
    | some none => some (0, kb1)

/-- First loop of `Wait4Key`: `do cpct_scanKeyboard_f(); while(!cpct_isKeyPressed(key));`.
The platform query `cpct_isKeyPressed` is a parameter. -/
def waitPressed (isKeyPressed : Nat → Snapshot → Bool) (scan : Nat → Snapshot) (key : Nat) :
    Nat → Keyboard → Option Keyboard
  | 0, _ => none
  | fuel + 1, kb =>
    let kb1 := cpct_scanKeyboard scan kb
    if !isKeyPressed key kb1.status then waitPressed isKeyPressed scan key fuel kb1
    else some kb1

/-- Second loop of `Wait4Key`: `do cpct_scanKeyboard_f(); while(cpct_isKeyPressed(key));`. -/
def waitReleased (isKeyPressed : Nat → Snapshot → Bool) (scan : Nat → Snapshot) (key : Nat) :
    Nat → Keyboard → Option Keyboard
  | 0, _ => none
  | fuel + 1, kb =>
    let kb1 := cpct_scanKeyboard scan kb
    if isKeyPressed key kb1.status then waitReleased isKeyPressed scan key fuel kb1
    else some kb1

/-- Embedding of `void Wait4Key(cpct_keyID key)`: the keyboard state on return. -/
def Wait4Key (isKeyPressed : Nat → Snapshot → Bool) (scan : Nat → Snapshot) (fuel : Nat)
    (key : Nat) (kb : Keyboard) : Option Keyboard :=
  match waitPressed isKeyPressed scan key fuel kb with
  | none => none
  | some kb1 => waitReleased isKeyPressed scan key fuel kb1

/-- Embedding of `cpct_keyID RedefineKey(u8 *info)`: the drawing calls issued, the key
returned and the keyboard state on return. -/
def RedefineKey (isKeyPressed : Nat → Snapshot → Bool) (scan : Nat → Snapshot) (fuel : Nat)
    (info : Buffer) (kb : Keyboard) : Option (List DrawOp × Nat × Keyboard) :=
  match PrintText fuel info 28 120 1 with
  | none => none
  | some ops =>
    match ReturnKeyPressed scan fuel kb with
    | none => none
    | some (key, kb1) =>
      match Wait4Key isKeyPressed scan fuel key kb1 with
      | none => none
      | some kb2 => some (ops, key, kb2)

/-! ## Main menu -/

/-- A C string literal as a `char` array: its character codes followed by the terminator. -/
def cString (s : String) : Buffer :=
  ⟨s.length + 1, fun i => (s.toList.map Char.toNat).getD i 0⟩

/-- Calls issued by `PrintStartMenu`. -/
inductive MenuDraw where
  /-- The call `ClearScreen()`. -/
  | clearScreen
  /-- The call `cpct_drawSprite(g_logo_k, cpctm_screenPtr(CPCT_VMEM_START, x, y),
  G_LOGO_0_W, G_LOGO_0_H)`. -/
  | logo (k x y : Nat)
  /-- A drawing call issued by `PrintText`. -/
  | text (op : DrawOp)
  deriving DecidableEq, Repr

/-- Embedding of `void PrintStartMenu()`.  The macro `G_LOGO_0_W` of `gfx/logo.h` is a
parameter. -/
def PrintStartMenu (fuel : Nat) (G_LOGO_0_W : Nat) : Option (List MenuDraw) :=
  match PrintText fuel (cString "1@@@MISSION") 10 50 0 with
  | none => none
  | some ops1 =>
    match PrintText fuel (cString "NEKROFAGE") 13 190 0 with
    | none => none
    | some ops2 =>
      some ([MenuDraw.clearScreen, MenuDraw.logo 0 0 0, MenuDraw.logo 1 G_LOGO_0_W 0]
        ++ ops1.map MenuDraw.text ++ ops2.map MenuDraw.text)

/-- Local variables of `StartMenu`: the `u8` counters `randSeed` and `page`. -/
structure MenuState where
  randSeed : Nat
  page : Nat
  deriving DecidableEq, Repr

/-- Calls made by one iteration of the loop of `StartMenu`. -/
inductive MenuCall where
  /-- The call `PrintStartMenu()`. -/
  | printStartMenu
  /-- The call `cpct_scanKeyboard_f()`. -/
  | scanKeyboard
  /-- The call `Pause(value)`. -/
  | pause (value : Nat)
  deriving DecidableEq, Repr

/-- State of `StartMenu` on entry to its loop: `randSeed = 254`, `page = 0`. -/
def StartMenuInit : MenuState := ⟨254, 0⟩

/-- One iteration of the `while(1)` loop of `StartMenu`: the next state and the calls made. -/
def StartMenuBody (s : MenuState) : MenuState × List MenuCall :=
  let randSeed := (s.randSeed + 1) % 256
  if randSeed = 255 then
    let calls := if s.page = 0 then [MenuCall.printStartMenu] else []
    let page := (s.page + 1) % 256
    (⟨0, if page = 8 then 0 else page⟩, calls ++ [MenuCall.scanKeyboard, MenuCall.pause 3])
  else
    (⟨randSeed, s.page⟩, [MenuCall.scanKeyboard, MenuCall.pause 3])

/-- Embedding of `void StartMenu()`, whose loop never ends: the state of its local
variables after `n` iterations of the loop. -/
def StartMenu (n : Nat) : MenuState := (fun s => (StartMenuBody s).1)^[n] StartMenuInit

/-! ## Main loop -/

/-- The counter update at the end of the body of the main loop of `main`:
`if (ctMainLoop == 174) ctMainLoop++; else if (ctMainLoop++ == 350) ctMainLoop = 0;`
on the `i16` variable `ctMainLoop`. -/
def mainLoopAdvance (ctMainLoop : Int) : Int :=
  if ctMainLoop = 174 then toI16 (ctMainLoop + 1)
  else
    let old := ctMainLoop
    let ctMainLoop1 := toI16 (ctMainLoop + 1)
    if old = 350 then 0 else ctMainLoop1

/-- The turn selected by `switch (ctMainLoop % 3)` in the main loop (`%` of C on `int`
truncates towards zero). -/
def mainLoopTurn (ctMainLoop : Int) : Int := Int.tmod ctMainLoop 3

/-- The counter update of the main loop with the `ctMainLoop == 174` branch removed, as the
specification describes it: `if (ctMainLoop++ == 350) ctMainLoop = 0;` (350 goes to 0,
every other value is incremented, in `i16` arithmetic). -/
def mainLoopAdvanceGeneric (ctMainLoop : Int) : Int :=
  let old := ctMainLoop
  let ctMainLoop1 := toI16 (ctMainLoop + 1)
  if old = 350 then 0 else ctMainLoop1

/-! ## Notions used to state the properties

Digit alphabet and numeral parsing, digit lists, the glyph blits of a list of drawing
calls, and which keys a snapshot shows as held. -/

/-- Character code of the digit of value `d` in the alphabet `0-9` then `a-z`. -/
def digitChar (d : Nat) : Nat := if d < 10 then 48 + d else 87 + d

/-- Value of a digit character of the alphabet `0-9` then `a-z`. -/
def digitValue (c : Nat) : Option Nat :=
  if 48 ≤ c ∧ c ≤ 57 then some (c - 48)
  else if 97 ≤ c ∧ c ≤ 122 then some (c - 87)
  else none

/-- Reading of character codes as base-`b` digits, most significant first, continuing
from the value `acc`; fails on a character that is not a digit below `b`. -/
def parseDigits (b : Nat) : Nat → List Nat → Option Nat
  | acc, [] => some acc
  | acc, c :: cs =>
    match digitValue c with
    | none => none
    | some d => if d < b then parseDigits b (acc * b + d) cs else none

/-- Reading of a non-empty string of character codes as a base-`b` numeral. -/
def parseNumeral (b : Nat) (s : List Nat) : Option Nat :=
  if s = [] then none else parseDigits b 0 s

/-- The digits produced by the first loop of `Itoa`, least significant first. -/
def itoaLE (b v : Nat) : List Nat := if v = 0 then [0] else Nat.digits b v

/-- The glyph blits among a list of drawing calls: glyph table index and screen location
of each `cpct_drawSpriteMaskedAlignedTable` call, in order. -/
def glyphBlits : List DrawOp → List (Int × ScreenPtr)
  | [] => []
  | DrawOp.spriteMasked g p _ _ :: ops => (g, p) :: glyphBlits ops
  | DrawOp.solidBox _ _ _ _ _ :: ops => glyphBlits ops

/-- Decimal digits of `v`, most significant first (`[0]` for 0): its decimal string. -/
def decimalDigits (v : Nat) : List Nat := if v = 0 then [0] else (Nat.digits 10 v).reverse

/-- Key number `b` (bit index) of matrix row `r` is held in the snapshot: its bit of the
status byte is 0. -/
def keyHeld (ks : Snapshot) (r b : Nat) : Bool := !(ks r).testBit b

/-- Screen location of a drawing call. -/
def DrawOp.ptr : DrawOp → ScreenPtr
  | DrawOp.solidBox p _ _ _ _ => p
  | DrawOp.spriteMasked _ p _ _ => p

/-- Every glyph blit of the list comes right after a solid box fill of one glyph cell in
the background colour at the same screen location. -/
def blitsPrecededByErase (ops : List DrawOp) : Prop :=
  ∀ i g p w h, ops[i]? = some (DrawOp.spriteMasked g p w h) →
    ∃ j, i = j + 1 ∧ ops[j]? = some (DrawOp.solidBox p BG_COLOR BG_COLOR FNT_W FNT_H)

/-- The list of drawing calls holds no solid box fill. -/
def noBoxFill (ops : List DrawOp) : Prop :=
  ∀ op ∈ ops, ∀ p a b w h, op ≠ DrawOp.solidBox p a b w h

/-! ## Interrupt scheduler -/

theorem Interrupt_step (t s0 : Nat) :
    Interrupt ⟨t % 6, s0 + t / 6⟩ = ⟨(t + 1) % 6, s0 + (t + 1) / 6⟩ := by
  unfold Interrupt
  have h : (t % 6 + 1) % 256 = t % 6 + 1 := by omega
  simp only [h]
  split
  · next h6 =>
    have h1 : (t + 1) % 6 = 0 := by omega
    have h2 : (t + 1) / 6 = t / 6 + 1 := by omega
    rw [h1, h2]; rfl
  · next h6 =>
    have h1 : (t + 1) % 6 = t % 6 + 1 := by omega
    have h2 : (t + 1) / 6 = t / 6 := by omega
    rw [h1, h2]

/-- C4: after `t` invocations of `Interrupt` starting with the tick counter `nInt` at 0 (and
`s0` keyboard scans already counted), exactly `t / 6` further keyboard scans have been
triggered and the tick counter equals `t % 6`. -/
theorem Interrupt_periodic (t s0 : Nat) :
    Interrupt^[t] ⟨0, s0⟩ = ⟨t % 6, s0 + t / 6⟩ := by
  induction t with
  | zero => rfl
  | succ n ih => rw [Function.iterate_succ_apply', ih, Interrupt_step]

/-! ## Main loop counter -/

theorem toI16_of_range (c : Int) (h0 : -32768 ≤ c) (h1 : c ≤ 32767) : toI16 c = c := by
  unfold toI16; omega

theorem mainLoopAdvance_of_range (c : Int) (h0 : 0 ≤ c) (h1 : c ≤ 350) :
    mainLoopAdvance c = if c = 350 then 0 else c + 1 := by
  unfold mainLoopAdvance
  have h : toI16 (c + 1) = c + 1 := toI16_of_range _ (by omega) (by omega)
  simp only [h]
  split
  · next h174 => subst h174; rfl
  · rfl

theorem mainLoopAdvance_iterate (k : Nat) :
    mainLoopAdvance^[k] 0 = ((k % 351 : Nat) : Int) := by
  induction k with
  | zero => rfl
  | succ n ih =>
    rw [Function.iterate_succ_apply', ih,
      mainLoopAdvance_of_range _ (by omega) (by omega)]
    split
    · next h => omega
    · next h => omega

/-- C5: starting from `ctMainLoop = 0`, after `k` counter updates of the main loop the
counter equals `k mod 351` and lies in `[0, 350]`; over any 351 consecutive updates
(those numbered `j, ..., j + 350`) each value `v` of `[0, 350]` is taken exactly once. -/
theorem mainLoop_counter_cycle (k j : Nat) (v : Int) (hv0 : 0 ≤ v) (hv1 : v ≤ 350) :
    mainLoopAdvance^[k] 0 = ((k % 351 : Nat) : Int)
    ∧ (0 ≤ mainLoopAdvance^[k] 0 ∧ mainLoopAdvance^[k] 0 ≤ 350)
    ∧ ∃! i, i < 351 ∧ mainLoopAdvance^[j + i] 0 = v := by
  refine ⟨mainLoopAdvance_iterate k, ?_, ?_⟩
  · rw [mainLoopAdvance_iterate]; omega
  · obtain ⟨w, rfl⟩ := Int.eq_ofNat_of_zero_le hv0
    refine ⟨(w + 351 - j % 351) % 351, ⟨Nat.mod_lt _ (by norm_num), ?_⟩, ?_⟩
    · rw [mainLoopAdvance_iterate]; omega
    · rintro i ⟨hi, he⟩
      rw [mainLoopAdvance_iterate] at he
      omega

theorem mainLoop_counter_cycle_witness :
    mainLoopAdvance^[1000] 0 = ((1000 % 351 : Nat) : Int)
    ∧ (0 ≤ mainLoopAdvance^[1000] 0 ∧ mainLoopAdvance^[1000] 0 ≤ 350)
    ∧ ∃! i, i < 351 ∧ mainLoopAdvance^[170 + i] 0 = 174 :=
  mainLoop_counter_cycle 1000 170 174 (by decide) (by decide)

/-- C6: for every `i16` value `c` of the counter, the update of the main loop with its
`ctMainLoop == 174` branch gives the same next value as the update without that branch;
away from the top of the `i16` range that value is 0 when `c = 350` and `c + 1`
otherwise. -/
theorem mainLoopAdvance_special_case_unobservable (c : Int)
    (h0 : -32768 ≤ c) (h1 : c ≤ 32767) :
    mainLoopAdvance c = mainLoopAdvanceGeneric c
    ∧ (c < 32767 → mainLoopAdvanceGeneric c = if c = 350 then 0 else c + 1) := by
  constructor
  · unfold mainLoopAdvance mainLoopAdvanceGeneric
    split
    · next h => subst h; rfl
    · rfl
  · intro h
    unfold mainLoopAdvanceGeneric
    rw [toI16_of_range _ (by omega) (by omega)]

theorem mainLoopAdvance_special_case_unobservable_witness :
    mainLoopAdvance 174 = mainLoopAdvanceGeneric 174
    ∧ ((174 : Int) < 32767 → mainLoopAdvanceGeneric 174 = if (174 : Int) = 350 then 0 else 174 + 1) :=
  mainLoopAdvance_special_case_unobservable 174 (by decide) (by decide)

/-! ## Integer to string conversion -/

theorem itoaLE_step (b v : Nat) (hb : 2 ≤ b) :
    itoaLE b v = (v % b) :: (if v / b = 0 then [] else itoaLE b (v / b)) := by
  unfold itoaLE
  by_cases hv : v = 0
  · subst hv; simp
  · rw [if_neg hv, Nat.digits_def' (by omega) (Nat.pos_of_ne_zero hv)]
    by_cases hq : v / b = 0
    · simp [hq]
    · simp [hq]

theorem itoaTable_digit (r : Nat) (h : r < 36) : itoaTable[35 + r]? = some (digitChar r) := by
  interval_cases r <;> rfl

theorem itoa_index (v b : Nat) (hv : v < 65536) (hb2 : 2 ≤ b) (hb : b ≤ 36) :
    addU16 35 (subU16 (toU16 (toI16 v)) (mulU16 (v / b) b)) = 35 + v % b := by
  have h1 := Nat.div_add_mod v b
  have h2 : v % b < b := Nat.mod_lt _ (by omega)
  have h3 : b * (v / b) = v / b * b := Nat.mul_comm _ _
  unfold addU16 subU16 toU16 toI16 mulU16
  generalize v / b * b = p at *
  generalize v % b = r at *
  generalize b * (v / b) = q at *
  omega

theorem Buffer.store_eq_some (buf : Buffer) (i v : Nat) (h : i < buf.size) :
    buf.store i v = some ⟨buf.size, fun j => if j = i then v else buf.byte j⟩ := by
  unfold Buffer.store; rw [if_pos h]

theorem Buffer.load_eq_some (buf : Buffer) (i : Nat) (h : i < buf.size) :
    buf.load i = some (buf.byte i) := by
  unfold Buffer.load; rw [if_pos h]

theorem ItoaDigits_spec (b : Nat) (hb2 : 2 ≤ b) (hb : b ≤ 36) (v : Nat) :
    v < 65536 → ∀ (fuel ptr : Nat) (buf : Buffer),
      (itoaLE b v).length ≤ fuel → ptr + (itoaLE b v).length ≤ buf.size →
      ∃ tmp buf1, ItoaDigits b fuel v ptr buf = some (tmp, ptr + (itoaLE b v).length, buf1)
        ∧ 0 ≤ tmp ∧ buf1.size = buf.size
        ∧ (∀ k, k < (itoaLE b v).length →
            (itoaLE b v)[k]?.map digitChar = some (buf1.byte (ptr + k)))
        ∧ (∀ j, j < ptr ∨ ptr + (itoaLE b v).length ≤ j → buf1.byte j = buf.byte j) := by
  induction v using Nat.strong_induction_on with
  | _ v ih =>
    intro hv fuel ptr buf hfuel hsize
    rw [itoaLE_step b v hb2] at hfuel hsize ⊢
    cases fuel with
    | zero => simp at hfuel
    | succ fuel =>
      have hr : v % b < 36 := lt_of_lt_of_le (Nat.mod_lt _ (by omega)) hb
      have hp : ptr < buf.size := by simp at hsize; omega
      simp only [ItoaDigits, itoa_index v b hv hb2 hb, itoaTable_digit _ hr,
        Buffer.store_eq_some buf ptr _ hp]
      by_cases hq : v / b = 0
      · simp only [hq, if_true, ne_eq, not_true_eq_false, if_false, List.length_singleton]
        refine ⟨_, _, rfl, ?_, rfl, ?_, ?_⟩
        · have : v < b := by
            rcases Nat.lt_or_ge v b with h | h
            · exact h
            · have := Nat.div_pos h (by omega); omega
          unfold toI16; omega
        · intro k hk
          have : k = 0 := by omega
          subst this; simp
        · intro j hj
          have : j ≠ ptr := by omega
          simp [this]
      · have hlt : v / b < v := Nat.div_lt_self (by
            rcases Nat.eq_zero_or_pos v with h | h
            · subst h; simp at hq
            · exact h) (by omega)
        simp only [hq, if_false, ne_eq, not_false_eq_true, if_true, List.length_cons] at hfuel hsize ⊢
        obtain ⟨tmp, buf1, he, ht, hs, hd, hrest⟩ :=
          ih (v / b) hlt (by omega) fuel (ptr + 1)
            ⟨buf.size, fun j => if j = ptr then digitChar (v % b) else buf.byte j⟩
            (by omega) (by simp only; omega)
        refine ⟨tmp, buf1, ?_, ht, hs, ?_, ?_⟩
        · rw [he]; simp only [Nat.add_assoc, Nat.add_comm 1]
        · intro k hk
          cases k with
          | zero =>
            have := hrest ptr (Or.inl (by omega))
            simp [this]
          | succ k =>
            have := hd k (by omega)
            simp only [List.getElem?_cons_succ]
            rw [this]; congr 2; omega
        · intro j hj
          have := hrest j (by omega)
          rw [this]
          have : j ≠ ptr := by omega
          simp [this]

theorem ItoaReverse_spec : ∀ (fuel ptr1 ptr : Nat) (buf : Buffer),
    ptr < buf.size → ptr1 ≤ ptr + 1 → ptr + 1 < ptr1 + 2 * fuel →
    ∃ buf1, ItoaReverse fuel ptr1 ptr buf = some buf1 ∧ buf1.size = buf.size
      ∧ ∀ j, buf1.byte j =
          if ptr1 ≤ j ∧ j ≤ ptr then buf.byte (ptr1 + ptr - j) else buf.byte j := by
  intro fuel
  induction fuel with
  | zero => intro ptr1 ptr buf _ h1 h; omega
  | succ fuel ih =>
    intro ptr1 ptr buf hp hle hf
    unfold ItoaReverse
    by_cases hlt : ptr1 < ptr
    · have hp1 : ptr1 < buf.size := by omega
      rw [if_pos hlt]
      simp only [Buffer.load_eq_some buf ptr hp, Buffer.load_eq_some buf ptr1 hp1,
        Buffer.store_eq_some buf ptr _ hp]
      rw [Buffer.store_eq_some _ ptr1 _ (by simpa using hp1)]
      simp only
      obtain ⟨buf1, he, hs, hb⟩ := ih (ptr1 + 1) (ptr - 1)
        ⟨buf.size, fun j => if j = ptr1 then buf.byte ptr
          else if j = ptr then buf.byte ptr1 else buf.byte j⟩
        (by simp only; omega) (by omega) (by omega)
      refine ⟨buf1, he, hs, ?_⟩
      intro j
      rw [hb j]
      simp only
      split_ifs <;> first | rfl | (congr 1; omega)
    · rw [if_neg hlt]
      refine ⟨buf, rfl, rfl, ?_⟩
      intro j
      by_cases h : ptr1 ≤ j ∧ j ≤ ptr
      · have : j = ptr := by omega
        subst this
        rw [if_pos h]; congr 1; omega
      · rw [if_neg h]

theorem itoaLE_length_pos (b v : Nat) : 0 < (itoaLE b v).length := by
  unfold itoaLE
  split
  · simp
  · next h =>
    exact List.length_pos.mpr (Nat.digits_ne_nil_iff_ne_zero.mpr h)

theorem toU16_base (b : Nat) (hb : b ≤ 36) : toU16 (b : Int) = b := by
  unfold toU16; omega

/-- What `Itoa` leaves in the buffer for a valid base: the digits most significant first,
then the terminator; the size and the bytes after the terminator are unchanged. -/
theorem Itoa_spec (v b fuel : Nat) (buf : Buffer) (hv : v < 65536) (hb2 : 2 ≤ b)
    (hb : b ≤ 36) (hfuel : (itoaLE b v).length ≤ fuel)
    (hsize : (itoaLE b v).length < buf.size) :
    ∃ buf1, Itoa fuel v buf (b : Int) = some buf1 ∧ buf1.size = buf.size
      ∧ (∀ k, k < (itoaLE b v).length →
          (itoaLE b v).reverse[k]?.map digitChar = some (buf1.byte k))
      ∧ buf1.byte (itoaLE b v).length = 0
      ∧ ∀ j, (itoaLE b v).length < j → buf1.byte j = buf.byte j := by
  have hn := itoaLE_length_pos b v
  obtain ⟨tmp, bufA, he, ht, hs, hd, hrest⟩ :=
    ItoaDigits_spec b hb2 hb v hv fuel 0 buf hfuel (by omega)
  simp only [Nat.zero_add] at he hd hrest
  obtain ⟨bufC, heC, hsC, hbC⟩ := ItoaReverse_spec fuel 0 ((itoaLE b v).length - 1)
    ⟨bufA.size, fun j => if j = (itoaLE b v).length then 0 else bufA.byte j⟩
    (by simp only; omega) (by omega) (by omega)
  refine ⟨bufC, ?_, by rw [hsC, ← hs], ?_, ?_, ?_⟩
  · unfold Itoa
    rw [if_neg (by omega), toU16_base b hb, he]
    simp only [if_neg (not_lt.mpr ht)]
    rw [Buffer.store_eq_some bufA _ _ (by omega)]
    exact heC
  · intro k hk
    rw [hbC k]
    simp only [Nat.zero_le, true_and, Nat.zero_add]
    rw [if_pos (by omega), if_neg (by omega), ← hd _ (by omega),
      List.getElem?_reverse hk]
  · rw [hbC]
    simp only [Nat.zero_le, true_and]
    rw [if_neg (by omega)]
    simp
  · intro j hj
    rw [hbC j]
    simp only [Nat.zero_le, true_and]
    rw [if_neg (by omega), if_neg (by omega)]
    exact hrest j (Or.inr (by omega))

theorem itoaLE_length_le (b v : Nat) (hb2 : 2 ≤ b) (hv : v < 65536) :
    (itoaLE b v).length ≤ 16 := by
  unfold itoaLE
  split
  · simp
  · next h =>
    by_contra hc
    have h1 := Nat.base_pow_length_digits_le b v (by omega) h
    have h2 : b ^ 17 ≤ b ^ (Nat.digits b v).length :=
      Nat.pow_le_pow_right (by omega) (by omega)
    have h3 : b * b ^ 16 ≤ b * v := by
      calc b * b ^ 16 = b ^ 17 := by ring
        _ ≤ _ := h2
        _ ≤ _ := h1
    have h4 : b ^ 16 ≤ v := Nat.le_of_mul_le_mul_left h3 (by omega)
    have h5 : 2 ^ 16 ≤ b ^ 16 := Nat.pow_le_pow_left hb2 16
    omega

theorem itoaLE_length_le_ten (v : Nat) (hv : v < 65536) : (itoaLE 10 v).length ≤ 5 := by
  unfold itoaLE
  split
  · simp
  · next h =>
    by_contra hc
    have h1 := Nat.base_pow_length_digits_le 10 v (by omega) h
    have h2 : 10 ^ 6 ≤ 10 ^ (Nat.digits 10 v).length :=
      Nat.pow_le_pow_right (by omega) (by omega)
    omega

theorem itoaLE_lt_base (b v d : Nat) (hb2 : 2 ≤ b) (hd : d ∈ itoaLE b v) : d < b := by
  unfold itoaLE at hd
  split at hd
  · simp at hd; omega
  · exact Nat.digits_lt_base (by omega) hd

theorem ofDigits_itoaLE (b v : Nat) : Nat.ofDigits b (itoaLE b v) = v := by
  unfold itoaLE
  split
  · next h => subst h; simp
  · exact Nat.ofDigits_digits b v

theorem digitChar_ne_zero (d : Nat) : digitChar d ≠ 0 := by
  unfold digitChar; split <;> omega

theorem digitValue_digitChar (d : Nat) (h : d < 36) : digitValue (digitChar d) = some d := by
  unfold digitValue digitChar
  by_cases h10 : d < 10
  · rw [if_pos h10, if_pos (by omega)]; congr 1; omega
  · rw [if_neg h10, if_neg (by omega), if_pos (by omega)]; congr 1; omega

theorem Buffer.cstringFrom_eq (buf : Buffer) (s : List Nat) :
    ∀ (fuel i : Nat), s.length ≤ fuel → i + s.length ≤ buf.size →
      (∀ k, k < s.length → s[k]? = some (buf.byte (i + k))) → (∀ c ∈ s, c ≠ 0) →
      (fuel = s.length ∨ buf.byte (i + s.length) = 0) →
      buf.cstringFrom fuel i = s := by
  induction s with
  | nil =>
    intro fuel i _ _ _ _ hz
    cases fuel with
    | zero => rfl
    | succ fuel =>
      have hz : buf.byte i = 0 := by simpa using hz
      simp [Buffer.cstringFrom, hz]
  | cons c s ih =>
    intro fuel i hf hsz hk hnz hz
    cases fuel with
    | zero => simp at hf
    | succ fuel =>
      have h0 := hk 0 (by simp)
      simp only [List.getElem?_cons_zero, Option.some.injEq, Nat.add_zero] at h0
      have hc : c ≠ 0 := hnz c (by simp)
      simp only [List.length_cons] at hf hsz hz
      unfold Buffer.cstringFrom
      rw [if_pos ⟨by omega, by rw [← h0]; exact hc⟩, ← h0]
      congr 1
      apply ih fuel (i + 1) (by omega) (by omega)
      · intro k hk1
        have := hk (k + 1) (by simp; omega)
        simp only [List.getElem?_cons_succ] at this
        rw [this]; congr 2; omega
      · intro d hd; exact hnz d (by simp [hd])
      · rcases hz with h | h
        · left; omega
        · right; rw [← h]; congr 1; omega

theorem parseDigits_append (b : Nat) (s t : List Nat) : ∀ acc,
    parseDigits b acc (s ++ t) = (parseDigits b acc s).bind (fun a => parseDigits b a t) := by
  induction s with
  | nil => intro acc; rfl
  | cons c s ih =>
    intro acc
    simp only [List.cons_append, parseDigits]
    cases digitValue c with
    | none => rfl
    | some d =>
      simp only
      split
      · exact ih _
      · rfl

theorem parseDigits_digitChars (b : Nat) (hb : b ≤ 36) (L : List Nat) :
    (∀ d ∈ L, d < b) → ∀ acc,
    parseDigits b acc (L.reverse.map digitChar) = some (acc * b ^ L.length + Nat.ofDigits b L) := by
  induction L with
  | nil => intro _ acc; simp [parseDigits]
  | cons d L ih =>
    intro hL acc
    have hd : d < b := hL d (by simp)
    rw [List.reverse_cons, List.map_append, parseDigits_append,
      ih (fun x hx => hL x (by simp [hx])) acc]
    simp only [Option.some_bind, List.map_cons, List.map_nil, parseDigits,
      digitValue_digitChar d (by omega), if_pos hd, List.length_cons, Nat.ofDigits_cons]
    congr 1
    ring

theorem Itoa_cstring (v b fuel : Nat) (buf : Buffer) (hv : v < 65536) (hb2 : 2 ≤ b)
    (hb : b ≤ 36) (hfuel : (itoaLE b v).length ≤ fuel)
    (hsize : (itoaLE b v).length < buf.size) :
    ∃ buf1, Itoa fuel v buf (b : Int) = some buf1 ∧ buf1.size = buf.size
      ∧ buf1.cstring = (itoaLE b v).reverse.map digitChar := by
  obtain ⟨buf1, he, hs, hd, hz, -⟩ := Itoa_spec v b fuel buf hv hb2 hb hfuel hsize
  refine ⟨buf1, he, hs, ?_⟩
  unfold Buffer.cstring
  apply Buffer.cstringFrom_eq
  · simp only [List.length_map, List.length_reverse]; omega
  · simp only [List.length_map, List.length_reverse]; omega
  · intro k hk
    simp only [List.length_map, List.length_reverse] at hk
    rw [List.getElem?_map, hd k hk, Nat.zero_add]
  · intro c hc
    simp only [List.mem_map] at hc
    obtain ⟨d, -, rfl⟩ := hc
    exact digitChar_ne_zero d
  · right
    simpa using hz

/-- C1: for every 16-bit unsigned value `v` and every base `2 ≤ base ≤ 36`, `Itoa` (given a
result array that can hold 16 digits and the terminator, and fuel for 16 iterations)
returns, and the C string it has written in the array, parsed as a base-`base` numeral over
the digits `0-9` then `a-z`, is `v`. -/
theorem Itoa_roundtrip (v : Nat) (base : Int) (fuel : Nat) (buf : Buffer)
    (hv : v < 65536) (hb2 : 2 ≤ base) (hb : base ≤ 36) (hfuel : 16 ≤ fuel)
    (hsize : 17 ≤ buf.size) :
    ∃ buf1, Itoa fuel v buf base = some buf1
      ∧ parseNumeral base.toNat buf1.cstring = some v := by
  obtain ⟨b, rfl⟩ := Int.eq_ofNat_of_zero_le (by omega : 0 ≤ base)
  have hb2n : 2 ≤ b := by omega
  have hbn : b ≤ 36 := by omega
  have hlen := itoaLE_length_le b v hb2n hv
  obtain ⟨buf1, he, -, hc⟩ := Itoa_cstring v b fuel buf hv hb2n hbn (by omega) (by omega)
  refine ⟨buf1, he, ?_⟩
  have hpos := itoaLE_length_pos b v
  have hne : (itoaLE b v).reverse.map digitChar ≠ [] := by
    intro h
    rw [List.map_eq_nil_iff, List.reverse_eq_nil_iff] at h
    rw [h] at hpos
    exact absurd hpos (by simp)
  rw [hc, Int.toNat_ofNat]
  unfold parseNumeral
  rw [if_neg hne, parseDigits_digitChars b hbn _ (fun d hd => itoaLE_lt_base b v d hb2n hd),
    ofDigits_itoaLE]
  simp

theorem Itoa_roundtrip_witness :
    ∃ buf1, Itoa 16 40000 ⟨17, fun _ => 7⟩ 36 = some buf1
      ∧ parseNumeral (36 : Int).toNat buf1.cstring = some 40000 :=
  Itoa_roundtrip 40000 36 16 ⟨17, fun _ => 7⟩ (by decide) (by decide) (by decide)
    (by decide) (by decide)

/-- C2: for every value and every base with `base < 2` or `base > 36`, `Itoa` returns the
empty string: the first byte of the result array is the terminator. -/
theorem Itoa_invalid_base (v : Nat) (base : Int) (fuel : Nat) (buf : Buffer)
    (hbase : base < 2 ∨ base > 36) (hsize : 0 < buf.size) :
    ∃ buf1, Itoa fuel v buf base = some buf1 ∧ buf1.byte 0 = 0 ∧ buf1.cstring = [] := by
  refine ⟨⟨buf.size, fun j => if j = 0 then 0 else buf.byte j⟩, ?_, rfl, ?_⟩
  · unfold Itoa
    rw [if_pos hbase, Buffer.store_eq_some buf 0 0 hsize]
  · unfold Buffer.cstring
    apply Buffer.cstringFrom_eq
    · simp
    · simp
    · intro k hk; simp at hk
    · intro c hc; simp at hc
    · right; rfl

theorem Itoa_invalid_base_witness :
    ∃ buf1, Itoa 0 1234 ⟨6, fun _ => 7⟩ 37 = some buf1 ∧ buf1.byte 0 = 0
      ∧ buf1.cstring = [] :=
  Itoa_invalid_base 1234 37 0 ⟨6, fun _ => 7⟩ (by decide) (by decide)

/-! ## Number rendering -/

theorem decimalDigits_eq (v : Nat) : decimalDigits v = (itoaLE 10 v).reverse := by
  unfold decimalDigits itoaLE
  split <;> rfl

theorem glyphBlits_append (a b : List DrawOp) :
    glyphBlits (a ++ b) = glyphBlits a ++ glyphBlits b := by
  induction a with
  | nil => rfl
  | cons op a ih =>
    cases op with
    | solidBox _ _ _ _ _ => simpa [glyphBlits] using ih
    | spriteMasked _ _ _ _ => simpa [glyphBlits] using ih

theorem glyphBlits_drawGlyph (prevDel c : Nat) (ptr : ScreenPtr) :
    glyphBlits (drawGlyph prevDel c ptr) = [((c : Int) - 48, ptr)] := by
  unfold drawGlyph
  split <;> rfl

theorem StrlenLoop_spec (str : Buffer) : ∀ (m fuel s : Nat), m < fuel → s + m < str.size →
    (∀ k, k < m → str.byte (s + k) ≠ 0) → str.byte (s + m) = 0 →
    StrlenLoop str fuel s = some (s + m) := by
  intro m
  induction m with
  | zero =>
    intro fuel s hf hs _ hz
    cases fuel with
    | zero => omega
    | succ fuel =>
      unfold StrlenLoop
      rw [Buffer.load_eq_some str s (by omega)]
      simp only [Nat.add_zero] at hz ⊢
      rw [hz]; rfl
  | succ m ih =>
    intro fuel s hf hs hnz hz
    cases fuel with
    | zero => omega
    | succ fuel =>
      unfold StrlenLoop
      rw [Buffer.load_eq_some str s (by omega)]
      have h0 := hnz 0 (by omega)
      simp only [Nat.add_zero] at h0
      simp only [ne_eq, h0, not_false_eq_true, if_true]
      rw [ih fuel (s + 1) (by omega) (by omega)
        (fun k hk => by have := hnz (k + 1) (by omega); rwa [← Nat.add_assoc, Nat.add_right_comm] at this)
        (by rw [← hz]; congr 1; omega)]
      congr 1; omega

/-- The drawing calls of `PrintNumberLoop` from position `pos` up to the terminator found
`m` bytes further. -/
theorem PrintNumberLoop_spec (txt : Buffer) (zeros x y prevDel : Nat) :
    ∀ (m fuel pos : Nat), m < fuel → pos + m < txt.size → pos + m < 256 →
    (∀ k, k < m → txt.byte (pos + k) ≠ 0) → txt.byte (pos + m) = 0 →
    PrintNumberLoop txt zeros x y prevDel fuel pos (txt.byte pos) =
      some ((List.range' pos m).flatMap (fun k =>
        drawGlyph prevDel (txt.byte k)
          (cpct_getScreenPtr (((zeros : Int) + k) * FNT_W + x) y))) := by
  intro m
  induction m with
  | zero =>
    intro fuel pos hf _ _ _ hz
    cases fuel with
    | zero => omega
    | succ fuel =>
      simp only [Nat.add_zero] at hz
      unfold PrintNumberLoop
      rw [hz]; rfl
  | succ m ih =>
    intro fuel pos hf hs h256 hnz hz
    cases fuel with
    | zero => omega
    | succ fuel =>
      have h0 := hnz 0 (by omega)
      simp only [Nat.add_zero] at h0
      have hpos : (pos + 1) % 256 = pos + 1 := Nat.mod_eq_of_lt (by omega)
      unfold PrintNumberLoop
      simp only [ne_eq, h0, not_false_eq_true, if_true, hpos]
      rw [Buffer.load_eq_some txt (pos + 1) (by omega)]
      simp only
      rw [ih fuel (pos + 1) (by omega) (by omega) (by omega)
        (fun k hk => by have := hnz (k + 1) (by omega); rwa [← Nat.add_assoc, Nat.add_right_comm] at this)
        (by rw [← hz]; congr 1; omega)]
      simp [List.range'_succ]

theorem glyphBlits_flatMap (L : List Nat) (c : Nat → Nat) (q : Nat → ScreenPtr)
    (prevDel : Nat) :
    glyphBlits (L.flatMap (fun k => drawGlyph prevDel (c k) (q k)))
      = L.map (fun k => (((c k : Nat) : Int) - 48, q k)) := by
  induction L with
  | nil => rfl
  | cons k L ih =>
    simp only [List.flatMap_cons, glyphBlits_append, glyphBlits_drawGlyph, ih, List.map_cons,
      List.singleton_append]

/-- The drawing calls of `PrintNumber`: one `drawGlyph` per character of the string written
by `Itoa`, the character at position `k` going to column `(zeros + k) * FNT_W + x` with
`zeros = len - Strlen(txt)`. -/
theorem PrintNumber_spec (fuel : Nat) (stack : Nat → Nat) (v w x y prevDel : Nat)
    (hv : v < 65536) (hfuel : 6 ≤ fuel) :
    ∃ txt, Itoa fuel v ⟨6, stack⟩ 10 = some txt
      ∧ (∀ k, k < (itoaLE 10 v).length →
          (itoaLE 10 v).reverse[k]?.map digitChar = some (txt.byte k))
      ∧ PrintNumber fuel stack v w x y prevDel =
        some ((List.range' 0 (itoaLE 10 v).length).flatMap (fun k =>
          drawGlyph prevDel (txt.byte k)
            (cpct_getScreenPtr
              (((toU8 ((w : Int) - ((itoaLE 10 v).length : Nat)) : Nat) + k) * FNT_W + x) y))) := by
  have hlen := itoaLE_length_le_ten v hv
  obtain ⟨txt, he, hs, hd, hz, -⟩ :=
    Itoa_spec v 10 fuel ⟨6, stack⟩ hv (by omega) (by omega) (by omega) (by simp only; omega)
  have hsz : txt.size = 6 := hs
  have hnz : ∀ k, k < (itoaLE 10 v).length → txt.byte (0 + k) ≠ 0 := by
    intro k hk
    have h1 := hd k hk
    rw [Nat.zero_add]
    cases hg : (itoaLE 10 v).reverse[k]? with
    | none => rw [hg] at h1; simp at h1
    | some d =>
      rw [hg] at h1
      simp only [Option.map_some', Option.some.injEq] at h1
      rw [← h1]; exact digitChar_ne_zero d
  refine ⟨txt, he, hd, ?_⟩
  have hstr : Strlen fuel txt = some (itoaLE 10 v).length := by
    unfold Strlen
    rw [StrlenLoop_spec txt (itoaLE 10 v).length fuel 0 (by omega) (by omega) hnz
      (by rw [Nat.zero_add]; exact hz)]
    simp only [Option.map_some', Nat.zero_add, Option.some.injEq]
    omega
  unfold PrintNumber
  have he10 : Itoa fuel v ⟨6, stack⟩ 10 = some txt := he
  rw [he10]
  simp only [hstr]
  rw [Buffer.load_eq_some txt 0 (by omega)]
  simp only
  exact PrintNumberLoop_spec txt _ x y prevDel (itoaLE 10 v).length fuel 0 (by omega)
    (by omega) (by omega) hnz (by rw [Nat.zero_add]; exact hz)

/-- C3 (as the code behaves): for every 16-bit unsigned `v` and field width `w` with
`len(decimal string of v) ≤ w`, `PrintNumber(v, w, x, y, prevDel)` returns and blits exactly
`len(decimal string of v)` glyph cells, which are the digits of `v` in order, the `k`-th in
cell `w - len + k` of the field (byte column `(w - len + k) * 3 + x` modulo 256, row `y`);
the first `w - len` cells of the field receive no glyph. -/
theorem PrintNumber_right_aligned (fuel : Nat) (stack : Nat → Nat) (v w x y prevDel : Nat)
    (hv : v < 65536) (hw : w < 256) (hy : y < 256) (hfuel : 6 ≤ fuel)
    (hlen : (decimalDigits v).length ≤ w) :
    ∃ ops, PrintNumber fuel stack v w x y prevDel = some ops
      ∧ (glyphBlits ops).length = (decimalDigits v).length
      ∧ ∀ k, (glyphBlits ops)[k]? = (decimalDigits v)[k]?.map (fun (d : Nat) =>
          ((d : Int), (⟨((w - (decimalDigits v).length + k) * 3 + x) % 256, y⟩ : ScreenPtr))) := by
  obtain ⟨txt, -, hd, hp⟩ := PrintNumber_spec fuel stack v w x y prevDel hv hfuel
  rw [decimalDigits_eq] at hlen ⊢
  simp only [List.length_reverse] at hlen ⊢
  refine ⟨_, hp, ?_, ?_⟩
  · rw [glyphBlits_flatMap]; simp
  · intro k
    rw [glyphBlits_flatMap, List.getElem?_map]
    by_cases hk : k < (itoaLE 10 v).length
    · rw [List.getElem?_range' 0 1 hk]
      have h1 := hd k hk
      cases hg : (itoaLE 10 v).reverse[k]? with
      | none => rw [hg] at h1; simp at h1
      | some d =>
        rw [hg] at h1
        simp only [Option.map_some', Option.some.injEq] at h1 ⊢
        have hd10 : d < 10 :=
          itoaLE_lt_base 10 v d (by omega) (List.mem_reverse.mp (List.getElem?_mem hg))
        have hbyte : txt.byte (0 + 1 * k) = 48 + d := by
          rw [Nat.zero_add, Nat.one_mul, ← h1]; unfold digitChar; rw [if_pos hd10]
        rw [hbyte]
        refine Prod.ext ?_ ?_
        · simp only; omega
        · simp only [cpct_getScreenPtr, toU8, FNT_W, ScreenPtr.mk.injEq]
          constructor <;> omega
    · rw [List.getElem?_eq_none (by simpa using hk),
        List.getElem?_eq_none (by simpa using hk)]
      rfl

theorem PrintNumber_right_aligned_witness :
    ∃ ops, PrintNumber 6 (fun _ => 0) 65535 5 10 20 1 = some ops
      ∧ (glyphBlits ops).length = (decimalDigits 65535).length
      ∧ ∀ k, (glyphBlits ops)[k]? = (decimalDigits 65535)[k]?.map (fun (d : Nat) =>
          ((d : Int), (⟨((5 - (decimalDigits 65535).length + k) * 3 + 10) % 256, 20⟩ : ScreenPtr))) :=
  PrintNumber_right_aligned 6 (fun _ => 0) 65535 5 10 20 1 (by decide) (by decide) (by decide)
    (by decide) (by simp [decimalDigits])

/-- C3 fails as stated: `PrintNumber(7, 3, 0, 0, 0)` issues a single glyph blit, the digit 7
in the third cell of the field; it does not emit 3 glyph cells and draws no zero glyph in
the two leading cells. -/
theorem PrintNumber_no_zero_padding :
    PrintNumber 6 (fun _ => 0) 7 3 0 0 0 = some [DrawOp.spriteMasked 7 ⟨6, 0⟩ 3 8]
    ∧ ¬ ∃ ops, PrintNumber 6 (fun _ => 0) 7 3 0 0 0 = some ops
        ∧ (glyphBlits ops).length = 3
        ∧ ∀ k, k < 3 - (decimalDigits 7).length → (glyphBlits ops)[k]?.map Prod.fst = some 0 := by
  have h : PrintNumber 6 (fun _ => 0) 7 3 0 0 0 = some [DrawOp.spriteMasked 7 ⟨6, 0⟩ 3 8] := by
    decide
  refine ⟨h, ?_⟩
  rintro ⟨ops, ho, hl, -⟩
  rw [h] at ho
  cases ho
  simp [glyphBlits] at hl

/-! ## Keyboard decoding -/

theorem invByte_lt (x : Nat) : (x % 256) ^^^ 255 < 256 :=
  Nat.xor_lt_two_pow (n := 8) (Nat.mod_lt _ (by norm_num)) (by norm_num)

theorem invByte_testBit (x b : Nat) (hb : b < 8) :
    ((x % 256) ^^^ 255).testBit b = !x.testBit b := by
  have h1 : (256 : Nat) = 2 ^ 8 := by norm_num
  have h2 : (255 : Nat) = 2 ^ 8 - 1 := by norm_num
  rw [h1, h2, Nat.testBit_xor, Nat.testBit_mod_two_pow, Nat.testBit_two_pow_sub_one]
  simp [hb]

theorem invByte_ne_zero_iff (x : Nat) :
    (x % 256) ^^^ 255 ≠ 0 ↔ ∃ b, b < 8 ∧ x.testBit b = false := by
  constructor
  · intro h
    obtain ⟨i, hi⟩ := Nat.ne_zero_implies_bit_true h
    have hi8 : i < 8 := by
      by_contra hc
      have hlt : (x % 256) ^^^ 255 < 2 ^ i :=
        lt_of_lt_of_le (invByte_lt x)
          (by
            have : 2 ^ 8 ≤ 2 ^ i := Nat.pow_le_pow_right (by norm_num) (by omega)
            simpa using this)
      rw [Nat.testBit_lt_two_pow hlt] at hi
      exact absurd hi (by simp)
    refine ⟨i, hi8, ?_⟩
    rw [invByte_testBit x i hi8] at hi
    simpa using hi
  · rintro ⟨b, hb, hx⟩ h0
    have := invByte_testBit x b hb
    rw [h0, hx] at this
    simp at this

theorem keyHeld_iff_row (ks : Snapshot) (r : Nat) :
    (ks r % 256) ^^^ 255 ≠ 0 ↔ ∃ b, b < 8 ∧ keyHeld ks r b = true := by
  rw [invByte_ne_zero_iff]
  simp [keyHeld]

theorem Snapshot.row_eq (ks : Snapshot) (n : Nat) (h : n < 10) :
    ks.row (n : Int) = some (ks n % 256) := by
  unfold Snapshot.row
  rw [if_pos (by omega)]
  simp

theorem detectKey_step (ks : Snapshot) (fuel n : Nat) (hn : n < 10) :
    detectKey ks (fuel + 1) (n + 1) (n : Int) =
      if (ks n % 256) ^^^ 255 ≠ 0 then some (some ((((ks n % 256) ^^^ 255) <<< 8) + n))
      else if n ≠ 0 then detectKey ks fuel n ((n : Int) - 1) else some none := by
  have hlt := invByte_lt (ks n)
  conv_lhs => unfold detectKey
  rw [Snapshot.row_eq ks n hn]
  simp only
  have hi : (n + 1 + 255) % 256 = n := by omega
  rw [hi]
  by_cases hk : (ks n % 256) ^^^ 255 ≠ 0
  · rw [if_pos hk, if_pos hk]
    congr 2
    rw [Nat.shiftLeft_eq]
    unfold toU16
    generalize (ks n % 256) ^^^ 255 = m at *
    push_cast
    omega
  · rw [if_neg hk, if_neg hk]

theorem detectKey_spec (ks : Snapshot) : ∀ (n fuel : Nat), n < 10 → n < fuel →
    ((∀ r, r ≤ n → (ks r % 256) ^^^ 255 = 0) → detectKey ks fuel (n + 1) (n : Int) = some none)
    ∧ (∀ r, r ≤ n → (ks r % 256) ^^^ 255 ≠ 0 →
        (∀ q, r < q → q ≤ n → (ks q % 256) ^^^ 255 = 0) →
        detectKey ks fuel (n + 1) (n : Int)
          = some (some ((((ks r % 256) ^^^ 255) <<< 8) + r))) := by
  intro n
  induction n with
  | zero =>
    intro fuel _ hf
    cases fuel with
    | zero => omega
    | succ fuel =>
      rw [detectKey_step ks fuel 0 (by omega)]
      constructor
      · intro h
        rw [if_neg (by simpa using h 0 (le_refl _))]
        simp
      · intro r hr hne _
        have : r = 0 := by omega
        subst this
        rw [if_pos hne]
  | succ n ih =>
    intro fuel hn hf
    cases fuel with
    | zero => omega
    | succ fuel =>
      rw [detectKey_step ks fuel (n + 1) hn]
      have hcast : (((n + 1 : Nat) : Int) - 1) = (n : Int) := by push_cast; omega
      rw [hcast]
      obtain ⟨ih1, ih2⟩ := ih fuel (by omega) (by omega)
      constructor
      · intro h
        rw [if_neg (by simpa using h (n + 1) (le_refl _)), if_pos (by omega)]
        exact ih1 (fun r hr => h r (by omega))
      · intro r hr hne hq
        by_cases hrn : r = n + 1
        · subst hrn
          rw [if_pos hne]
        · rw [if_neg (by simpa using hq (n + 1) (by omega) (le_refl _)), if_pos (by omega)]
          exact ih2 r (by omega) hne (fun q h1 h2 => hq q h1 (by omega))

theorem exists_highest_row (ks : Snapshot) : ∀ (n : Nat),
    (∃ r, r ≤ n ∧ (ks r % 256) ^^^ 255 ≠ 0) →
    ∃ r, r ≤ n ∧ (ks r % 256) ^^^ 255 ≠ 0 ∧ ∀ q, r < q → q ≤ n → (ks q % 256) ^^^ 255 = 0 := by
  intro n
  induction n with
  | zero =>
    rintro ⟨r, hr, hne⟩
    exact ⟨r, hr, hne, fun q h1 h2 => by omega⟩
  | succ n ih =>
    rintro ⟨r, hr, hne⟩
    by_cases htop : (ks (n + 1) % 256) ^^^ 255 = 0
    · have hrn : r ≤ n := by
        rcases Nat.lt_or_ge n r with h | h
        · have : r = n + 1 := by omega
          subst this; exact absurd htop hne
        · exact h
      obtain ⟨r1, h1, h2, h3⟩ := ih ⟨r, hrn, hne⟩
      refine ⟨r1, by omega, h2, fun q hq1 hq2 => ?_⟩
      by_cases hqn : q = n + 1
      · subst hqn; exact htop
      · exact h3 q hq1 (by omega)
    · exact ⟨n + 1, le_refl _, htop, fun q h1 h2 => by omega⟩

theorem cpct_isAnyKeyPressed_iff (ks : Snapshot) :
    cpct_isAnyKeyPressed ks = true ↔ ∃ r b, r < 10 ∧ b < 8 ∧ keyHeld ks r b = true := by
  unfold cpct_isAnyKeyPressed
  simp only [List.any_eq_true, List.mem_range, bne_iff_ne, ne_eq]
  constructor
  · rintro ⟨r, hr, hne⟩
    have h : (ks r % 256) ^^^ 255 ≠ 0 := fun h0 => hne (Nat.xor_eq_zero.mp h0)
    obtain ⟨b, hb, hh⟩ := (keyHeld_iff_row ks r).mp h
    exact ⟨r, b, hr, hb, hh⟩
  · rintro ⟨r, b, hr, hb, hh⟩
    have h := (keyHeld_iff_row ks r).mpr ⟨b, hb, hh⟩
    exact ⟨r, hr, fun h255 => h (by rw [h255]; exact Nat.xor_self 255)⟩

theorem cpct_isAnyKeyPressed_false (ks : Snapshot)
    (h : ∀ r b, r < 10 → b < 8 → keyHeld ks r b = false) : cpct_isAnyKeyPressed ks = false := by
  cases hc : cpct_isAnyKeyPressed ks with
  | false => rfl
  | true =>
    obtain ⟨r, b, hr, hb, hh⟩ := (cpct_isAnyKeyPressed_iff ks).mp hc
    rw [h r b hr hb] at hh
    exact absurd hh (by simp)

theorem waitAnyKey_spec (scan : Nat → Snapshot) : ∀ (n fuel : Nat) (kb : Keyboard), n < fuel →
    (∀ j, j < n → cpct_isAnyKeyPressed (scan (kb.scans + j)) = false) →
    cpct_isAnyKeyPressed (scan (kb.scans + n)) = true →
    waitAnyKey scan fuel kb = some ⟨kb.scans + n + 1, scan (kb.scans + n)⟩ := by
  intro n
  induction n with
  | zero =>
    intro fuel kb hf _ hp
    cases fuel with
    | zero => omega
    | succ fuel =>
      simp only [Nat.add_zero] at hp
      simp [waitAnyKey, cpct_scanKeyboard, hp]
  | succ n ih =>
    intro fuel kb hf hidle hp
    cases fuel with
    | zero => omega
    | succ fuel =>
      have h0 := hidle 0 (by omega)
      simp only [Nat.add_zero] at h0
      have := ih fuel (cpct_scanKeyboard scan kb) (by omega)
        (fun j hj => by
          have := hidle (j + 1) (by omega)
          simpa [cpct_scanKeyboard, Nat.add_assoc, Nat.add_comm 1 j] using this)
        (by simpa [cpct_scanKeyboard, Nat.add_assoc, Nat.add_comm 1 n] using hp)
      simp only [waitAnyKey, cpct_scanKeyboard, h0, Bool.not_false, if_true]
      simp only [cpct_scanKeyboard] at this
      rw [this]
      simp [Nat.add_assoc, Nat.add_comm 1 n]

/-- Result of `ReturnKeyPressed` when scan number `kb.scans + n` is the first one showing a
held key: the code `(mask << 8) + r` of the highest row `r` with a held key, `mask` being
the inverted status byte of that row. -/
theorem ReturnKeyPressed_spec (scan : Nat → Snapshot) (fuel n : Nat) (kb : Keyboard)
    (hfuel : 10 ≤ fuel) (hn : n < fuel)
    (hidle : ∀ j r b, j < n → r < 10 → b < 8 → keyHeld (scan (kb.scans + j)) r b = false)
    (hheld : ∃ r b, r < 10 ∧ b < 8 ∧ keyHeld (scan (kb.scans + n)) r b = true) :
    ∃ r, r < 10 ∧ ((scan (kb.scans + n)) r % 256) ^^^ 255 ≠ 0
      ∧ (∀ q, r < q → q < 10 → ((scan (kb.scans + n)) q % 256) ^^^ 255 = 0)
      ∧ ReturnKeyPressed scan fuel kb =
          some (((((scan (kb.scans + n)) r % 256) ^^^ 255) <<< 8) + r,
            ⟨kb.scans + n + 1, scan (kb.scans + n)⟩) := by
  obtain ⟨r0, b0, hr0, hb0, hh0⟩ := hheld
  obtain ⟨r, hr, hne, htop⟩ := exists_highest_row (scan (kb.scans + n)) 9
    ⟨r0, by omega, (keyHeld_iff_row _ r0).mpr ⟨b0, hb0, hh0⟩⟩
  refine ⟨r, by omega, hne, fun q h1 h2 => htop q h1 (by omega), ?_⟩
  unfold ReturnKeyPressed
  rw [waitAnyKey_spec scan n fuel kb hn
    (fun j hj => cpct_isAnyKeyPressed_false _ (fun r b hr hb => hidle j r b hj hr hb))
    ((cpct_isAnyKeyPressed_iff _).mpr ⟨r0, b0, hr0, hb0, hh0⟩)]
  simp only
  have := (detectKey_spec (scan (kb.scans + n)) 9 fuel (by omega) (by omega)).2 r hr hne htop
  simp only [Nat.cast_ofNat] at this
  rw [this]

/-- C8: for every snapshot with at least one key held, the decoding loop of
`ReturnKeyPressed` (rows examined from index 9 down to index 0) returns `(mask << 8) + r`
where `r` is the first row it meets whose inverted status byte `mask = byte XOR 0xFF` is
non-zero (all rows above `r` have a zero mask); it does not fall through to the
`return 0` after the loop. -/
theorem detectKey_first_active_row (ks : Snapshot) (fuel : Nat) (hfuel : 10 ≤ fuel)
    (hheld : ∃ r b, r < 10 ∧ b < 8 ∧ keyHeld ks r b = true) :
    ∃ r, r < 10 ∧ (ks r % 256) ^^^ 0xFF ≠ 0
      ∧ (∀ q, r < q → q < 10 → (ks q % 256) ^^^ 0xFF = 0)
      ∧ detectKey ks fuel 10 9 = some (some ((((ks r % 256) ^^^ 0xFF) <<< 8) + r))
      ∧ detectKey ks fuel 10 9 ≠ some none := by
  obtain ⟨r0, b0, hr0, hb0, hh0⟩ := hheld
  obtain ⟨r, hr, hne, htop⟩ := exists_highest_row ks 9
    ⟨r0, by omega, (keyHeld_iff_row _ r0).mpr ⟨b0, hb0, hh0⟩⟩
  have := (detectKey_spec ks 9 fuel (by omega) (by omega)).2 r hr hne htop
  simp only [Nat.cast_ofNat] at this
  refine ⟨r, by omega, hne, fun q h1 h2 => htop q h1 (by omega), this, ?_⟩
  rw [this]
  simp

theorem detectKey_first_active_row_witness :
    ∃ r, r < 10
      ∧ ((fun r => if r = 3 ∨ r = 7 then 0xFA else 0xFF : Snapshot) r % 256) ^^^ 0xFF ≠ 0
      ∧ (∀ q, r < q → q < 10 →
          ((fun r => if r = 3 ∨ r = 7 then 0xFA else 0xFF : Snapshot) q % 256) ^^^ 0xFF = 0)
      ∧ detectKey (fun r => if r = 3 ∨ r = 7 then 0xFA else 0xFF) 10 10 9
          = some (some (((((fun r => if r = 3 ∨ r = 7 then 0xFA else 0xFF : Snapshot) r % 256)
              ^^^ 0xFF) <<< 8) + r))
      ∧ detectKey (fun r => if r = 3 ∨ r = 7 then 0xFA else 0xFF) 10 10 9 ≠ some none :=
  detectKey_first_active_row (fun r => if r = 3 ∨ r = 7 then 0xFA else 0xFF) 10 (by decide)
    ⟨3, 0, by decide, by decide, by decide⟩

/-- C7 (as the code behaves): when scan number `kb.scans + n` is the first to show a held
key, `ReturnKeyPressed` returns on that snapshot a key code whose row part (low byte) is
the highest row index among the rows that contain a held key. -/
theorem ReturnKeyPressed_highest_row (scan : Nat → Snapshot) (fuel n : Nat) (kb : Keyboard)
    (hfuel : 10 ≤ fuel) (hn : n < fuel)
    (hidle : ∀ j r b, j < n → r < 10 → b < 8 → keyHeld (scan (kb.scans + j)) r b = false)
    (hheld : ∃ r b, r < 10 ∧ b < 8 ∧ keyHeld (scan (kb.scans + n)) r b = true) :
    ∃ key kb1, ReturnKeyPressed scan fuel kb = some (key, kb1)
      ∧ kb1.status = scan (kb.scans + n)
      ∧ key % 256 < 10
      ∧ (∃ b, b < 8 ∧ keyHeld kb1.status (key % 256) b = true)
      ∧ ∀ r b, r < 10 → b < 8 → keyHeld kb1.status r b = true → r ≤ key % 256 := by
  obtain ⟨r, hr, hne, htop, he⟩ := ReturnKeyPressed_spec scan fuel n kb hfuel hn hidle hheld
  have hlt := invByte_lt (scan (kb.scans + n) r)
  have hrow : ((((scan (kb.scans + n)) r % 256) ^^^ 255) <<< 8 + r) % 256 = r := by
    rw [Nat.shiftLeft_eq]; omega
  refine ⟨_, _, he, rfl, ?_, ?_, ?_⟩
  · rw [hrow]; exact hr
  · rw [hrow]; exact (keyHeld_iff_row _ r).mp hne
  · intro q b hq hb hh
    rw [hrow]
    by_contra hc
    exact (keyHeld_iff_row _ q).mpr ⟨b, hb, hh⟩ (htop q (by omega) hq)

theorem ReturnKeyPressed_highest_row_witness :
    ∃ key kb1,
      ReturnKeyPressed (fun k r => if k = 2 ∧ (r = 0 ∨ r = 9) then 0xFE else 0xFF) 10
          ⟨0, fun _ => 0xFF⟩ = some (key, kb1)
      ∧ kb1.status = (fun k r => if k = 2 ∧ (r = 0 ∨ r = 9) then 0xFE else 0xFF) (0 + 2)
      ∧ key % 256 < 10
      ∧ (∃ b, b < 8 ∧ keyHeld kb1.status (key % 256) b = true)
      ∧ ∀ r b, r < 10 → b < 8 → keyHeld kb1.status r b = true → r ≤ key % 256 :=
  ReturnKeyPressed_highest_row (fun k r => if k = 2 ∧ (r = 0 ∨ r = 9) then 0xFE else 0xFF)
    10 2 ⟨0, fun _ => 0xFF⟩ (by decide) (by decide)
    (by
      intro j r b hj hr hb
      have : j = 0 ∨ j = 1 := by omega
      rcases this with h | h <;> subst h <;> simp [keyHeld] <;>
        (interval_cases b <;> decide))
    ⟨0, 0, by decide, by decide, by decide⟩

/-- C7 fails as stated: with the first key of row 0 and the first key of row 9 held
together, `ReturnKeyPressed` returns the code `0x0109` of the key in row 9, although row 0
also contains a held key: the returned row is not the lowest one. -/
theorem ReturnKeyPressed_not_lowest_row :
    ∃ key kb1,
      ReturnKeyPressed (fun _ r => if r = 0 ∨ r = 9 then 0xFE else 0xFF) 10
          ⟨0, fun _ => 0xFF⟩ = some (key, kb1)
      ∧ key = 0x0109
      ∧ ¬ ∀ r b, r < 10 → b < 8 → keyHeld kb1.status r b = true → key % 256 ≤ r := by
  refine ⟨0x0109, ⟨1, fun r => if r = 0 ∨ r = 9 then 0xFE else 0xFF⟩, rfl, rfl, ?_⟩
  intro h
  have := h 0 0 (by decide) (by decide) (by decide)
  exact absurd this (by decide)

/-- C9 (as the code behaves): when scan number `kb.scans + n` is the first to show a held
key, the key code returned by `ReturnKeyPressed` has a row part (low byte) in 0-9 and a
bitmask part (high byte) that is non-zero, below 256, and has bit `b` set exactly when key
`b` of that row is held; so it has exactly one bit set, bit `b`, when `b` is the only key
held in that row. -/
theorem ReturnKeyPressed_row_and_mask (scan : Nat → Snapshot) (fuel n : Nat) (kb : Keyboard)
    (hfuel : 10 ≤ fuel) (hn : n < fuel)
    (hidle : ∀ j r b, j < n → r < 10 → b < 8 → keyHeld (scan (kb.scans + j)) r b = false)
    (hheld : ∃ r b, r < 10 ∧ b < 8 ∧ keyHeld (scan (kb.scans + n)) r b = true) :
    ∃ key kb1, ReturnKeyPressed scan fuel kb = some (key, kb1)
      ∧ kb1.status = scan (kb.scans + n)
      ∧ key % 256 < 10
      ∧ 0 < key / 256 ∧ key / 256 < 256
      ∧ (∀ b, b < 8 → (key / 256).testBit b = keyHeld kb1.status (key % 256) b)
      ∧ ∀ b, b < 8 → (∀ c, c < 8 → (keyHeld kb1.status (key % 256) c = true ↔ c = b)) →
          key / 256 = 2 ^ b := by
  obtain ⟨r, hr, hne, -, he⟩ := ReturnKeyPressed_spec scan fuel n kb hfuel hn hidle hheld
  have hlt := invByte_lt (scan (kb.scans + n) r)
  have hrow : ((((scan (kb.scans + n)) r % 256) ^^^ 255) <<< 8 + r) % 256 = r := by
    rw [Nat.shiftLeft_eq]; omega
  have hmask : ((((scan (kb.scans + n)) r % 256) ^^^ 255) <<< 8 + r) / 256
      = ((scan (kb.scans + n)) r % 256) ^^^ 255 := by
    rw [Nat.shiftLeft_eq]; omega
  have hbits : ∀ b, b < 8 → ((((scan (kb.scans + n)) r % 256) ^^^ 255)).testBit b
      = keyHeld (scan (kb.scans + n)) r b := fun b hb => invByte_testBit _ b hb
  refine ⟨_, _, he, rfl, ?_, ?_, ?_, ?_, ?_⟩
  · rw [hrow]; exact hr
  · rw [hmask]; exact Nat.pos_of_ne_zero hne
  · rw [hmask]; exact hlt
  · intro b hb
    rw [hmask, hrow]
    exact hbits b hb
  · intro b hb honly
    rw [hmask]
    rw [hrow] at honly
    apply Nat.eq_of_testBit_eq
    intro i
    rw [Nat.testBit_two_pow]
    by_cases hi : i < 8
    · rw [hbits i hi]
      by_cases hib : i = b
      · subst hib
        rw [(honly i hi).mpr rfl]; simp
      · have : keyHeld (scan (kb.scans + n)) r i = false := by
          cases hk : keyHeld (scan (kb.scans + n)) r i with
          | false => rfl
          | true => exact absurd ((honly i hi).mp hk) hib
        rw [this]
        simp only [Bool.false_eq, decide_eq_false_iff_not]
        omega
    · have hlt2 : ((scan (kb.scans + n)) r % 256) ^^^ 255 < 2 ^ i :=
        lt_of_lt_of_le hlt
          (by
            have : 2 ^ 8 ≤ 2 ^ i := Nat.pow_le_pow_right (by norm_num) (by omega)
            simpa using this)
      rw [Nat.testBit_lt_two_pow hlt2]
      simp only [Bool.false_eq, decide_eq_false_iff_not]
      omega

theorem ReturnKeyPressed_row_and_mask_witness :
    ∃ key kb1,
      ReturnKeyPressed (fun _ r => if r = 4 then 0xF7 else 0xFF) 10 ⟨0, fun _ => 0xFF⟩
        = some (key, kb1)
      ∧ kb1.status = (fun (_ : Nat) r => if r = 4 then 0xF7 else 0xFF) (0 + 0)
      ∧ key % 256 < 10
      ∧ 0 < key / 256 ∧ key / 256 < 256
      ∧ (∀ b, b < 8 → (key / 256).testBit b = keyHeld kb1.status (key % 256) b)
      ∧ ∀ b, b < 8 → (∀ c, c < 8 → (keyHeld kb1.status (key % 256) c = true ↔ c = b)) →
          key / 256 = 2 ^ b :=
  ReturnKeyPressed_row_and_mask (fun _ r => if r = 4 then 0xF7 else 0xFF) 10 0
    ⟨0, fun _ => 0xFF⟩ (by decide) (by decide)
    (fun j r b hj _ _ => absurd hj (by omega))
    ⟨4, 3, by decide, by decide, by decide⟩

/-- C9 fails as stated: with the first two keys of row 0 held together, `ReturnKeyPressed`
returns the code `0x0300`, whose bitmask part `0x03` has two bits set, not exactly one. -/
theorem ReturnKeyPressed_two_keys_same_row :
    ∃ key kb1,
      ReturnKeyPressed (fun _ r => if r = 0 then 0xFC else 0xFF) 10 ⟨0, fun _ => 0xFF⟩
        = some (key, kb1)
      ∧ key = 0x0300
      ∧ ¬ ∃ b, b < 8 ∧ key / 256 = 2 ^ b := by
  refine ⟨0x0300, ⟨1, fun r => if r = 0 then 0xFC else 0xFF⟩, rfl, rfl, ?_⟩
  decide

/-! ## Waiting for a key release -/

theorem waitPressed_safe (isKeyPressed : Nat → Snapshot → Bool) (scan : Nat → Snapshot)
    (key : Nat) : ∀ (fuel : Nat) (kb kb1 : Keyboard),
    waitPressed isKeyPressed scan key fuel kb = some kb1 →
    kb.scans < kb1.scans ∧ kb1.status = scan (kb1.scans - 1)
      ∧ isKeyPressed key kb1.status = true := by
  intro fuel
  induction fuel with
  | zero => intro kb kb1 h; simp [waitPressed] at h
  | succ fuel ih =>
    intro kb kb1 h
    unfold waitPressed at h
    simp only at h
    split at h
    · have := ih _ _ h
      simp only [cpct_scanKeyboard] at this
      exact ⟨by omega, this.2⟩
    · next hp =>
      simp only [Option.some.injEq] at h
      subst h
      simp only [cpct_scanKeyboard, Nat.add_sub_cancel] at hp ⊢
      exact ⟨by omega, trivial, by simpa using hp⟩

theorem waitReleased_safe (isKeyPressed : Nat → Snapshot → Bool) (scan : Nat → Snapshot)
    (key : Nat) : ∀ (fuel : Nat) (kb kb1 : Keyboard),
    waitReleased isKeyPressed scan key fuel kb = some kb1 →
    kb.scans < kb1.scans ∧ kb1.status = scan (kb1.scans - 1)
      ∧ isKeyPressed key kb1.status = false := by
  intro fuel
  induction fuel with
  | zero => intro kb kb1 h; simp [waitReleased] at h
  | succ fuel ih =>
    intro kb kb1 h
    unfold waitReleased at h
    simp only at h
    split at h
    · have := ih _ _ h
      simp only [cpct_scanKeyboard] at this
      exact ⟨by omega, this.2⟩
    · next hp =>
      simp only [Option.some.injEq] at h
      subst h
      simp only [cpct_scanKeyboard, Nat.add_sub_cancel] at hp ⊢
      exact ⟨by omega, trivial, by simpa using hp⟩

theorem Wait4Key_safe (isKeyPressed : Nat → Snapshot → Bool) (scan : Nat → Snapshot)
    (fuel key : Nat) (kb kb1 : Keyboard)
    (h : Wait4Key isKeyPressed scan fuel key kb = some kb1) :
    kb1.status = scan (kb1.scans - 1) ∧ isKeyPressed key kb1.status = false
      ∧ ∃ j, kb.scans ≤ j ∧ j + 1 < kb1.scans ∧ isKeyPressed key (scan j) = true := by
  unfold Wait4Key at h
  split at h
  · simp at h
  · next kbm hm =>
    obtain ⟨h1, h2, h3⟩ := waitPressed_safe isKeyPressed scan key fuel kb kbm hm
    obtain ⟨h4, h5, h6⟩ := waitReleased_safe isKeyPressed scan key fuel kbm kb1 h
    refine ⟨h5, h6, kbm.scans - 1, by omega, by omega, ?_⟩
    rw [← h2]; exact h3

theorem waitPressed_spec (isKeyPressed : Nat → Snapshot → Bool) (scan : Nat → Snapshot)
    (key : Nat) : ∀ (n fuel : Nat) (kb : Keyboard), n < fuel →
    (∀ j, j < n → isKeyPressed key (scan (kb.scans + j)) = false) →
    isKeyPressed key (scan (kb.scans + n)) = true →
    waitPressed isKeyPressed scan key fuel kb = some ⟨kb.scans + n + 1, scan (kb.scans + n)⟩ := by
  intro n
  induction n with
  | zero =>
    intro fuel kb hf _ hp
    cases fuel with
    | zero => omega
    | succ fuel =>
      simp only [Nat.add_zero] at hp
      simp [waitPressed, cpct_scanKeyboard, hp]
  | succ n ih =>
    intro fuel kb hf hidle hp
    cases fuel with
    | zero => omega
    | succ fuel =>
      have h0 := hidle 0 (by omega)
      simp only [Nat.add_zero] at h0
      have := ih fuel (cpct_scanKeyboard scan kb) (by omega)
        (fun j hj => by
          have := hidle (j + 1) (by omega)
          simpa [cpct_scanKeyboard, Nat.add_assoc, Nat.add_comm 1 j] using this)
        (by simpa [cpct_scanKeyboard, Nat.add_assoc, Nat.add_comm 1 n] using hp)
      simp only [waitPressed, cpct_scanKeyboard, h0, Bool.not_false, if_true]
      simp only [cpct_scanKeyboard] at this
      rw [this]
      simp [Nat.add_assoc, Nat.add_comm 1 n]

theorem waitReleased_spec (isKeyPressed : Nat → Snapshot → Bool) (scan : Nat → Snapshot)
    (key : Nat) : ∀ (n fuel : Nat) (kb : Keyboard), n < fuel →
    (∀ j, j < n → isKeyPressed key (scan (kb.scans + j)) = true) →
    isKeyPressed key (scan (kb.scans + n)) = false →
    waitReleased isKeyPressed scan key fuel kb
      = some ⟨kb.scans + n + 1, scan (kb.scans + n)⟩ := by
  intro n
  induction n with
  | zero =>
    intro fuel kb hf _ hp
    cases fuel with
    | zero => omega
    | succ fuel =>
      simp only [Nat.add_zero] at hp
      simp [waitReleased, cpct_scanKeyboard, hp]
  | succ n ih =>
    intro fuel kb hf hheld hp
    cases fuel with
    | zero => omega
    | succ fuel =>
      have h0 := hheld 0 (by omega)
      simp only [Nat.add_zero] at h0
      have := ih fuel (cpct_scanKeyboard scan kb) (by omega)
        (fun j hj => by
          have := hheld (j + 1) (by omega)
          simpa [cpct_scanKeyboard, Nat.add_assoc, Nat.add_comm 1 j] using this)
        (by simpa [cpct_scanKeyboard, Nat.add_assoc, Nat.add_comm 1 n] using hp)
      simp only [waitReleased, cpct_scanKeyboard, h0, if_true]
      simp only [cpct_scanKeyboard] at this
      rw [this]
      simp [Nat.add_assoc, Nat.add_comm 1 n]

/-- The function `Wait4Key` returns: when the key is first seen held at scan `kb.scans + p` and first seen
released afterwards at scan `kb.scans + q`, fuel for more than `q` iterations makes
`Wait4Key` return right after scan `kb.scans + q`. -/
theorem Wait4Key_returns (isKeyPressed : Nat → Snapshot → Bool) (scan : Nat → Snapshot)
    (fuel key p q : Nat) (kb : Keyboard) (hpq : p < q) (hfuel : q < fuel)
    (hidle : ∀ j, j < p → isKeyPressed key (scan (kb.scans + j)) = false)
    (hpress : isKeyPressed key (scan (kb.scans + p)) = true)
    (hheld : ∀ j, p < j → j < q → isKeyPressed key (scan (kb.scans + j)) = true)
    (hrel : isKeyPressed key (scan (kb.scans + q)) = false) :
    Wait4Key isKeyPressed scan fuel key kb = some ⟨kb.scans + q + 1, scan (kb.scans + q)⟩ := by
  unfold Wait4Key
  rw [waitPressed_spec isKeyPressed scan key p fuel kb (by omega) hidle hpress]
  simp only
  have hq : kb.scans + p + 1 + (q - p - 1) = kb.scans + q := by omega
  rw [waitReleased_spec isKeyPressed scan key (q - p - 1) fuel _ (by omega)
    (fun j hj => by
      have := hheld (p + 1 + j) (by omega) (by omega)
      simpa [Nat.add_assoc] using this)
    (by simp only; rw [hq]; exact hrel)]
  simp only [hq]

/-- C10: for every stream of keyboard snapshots and every key code, whenever `Wait4Key(key)`
returns, the status buffer is the snapshot of the latest scan and shows the key not held,
and an earlier scan made during the same call showed the key held. -/
theorem Wait4Key_no_early_return (isKeyPressed : Nat → Snapshot → Bool)
    (scan : Nat → Snapshot) (fuel key : Nat) (kb kb1 : Keyboard)
    (h : Wait4Key isKeyPressed scan fuel key kb = some kb1) :
    kb1.status = scan (kb1.scans - 1) ∧ isKeyPressed key kb1.status = false
      ∧ ∃ j, kb.scans ≤ j ∧ j + 1 < kb1.scans ∧ isKeyPressed key (scan j) = true :=
  Wait4Key_safe isKeyPressed scan fuel key kb kb1 h

theorem Wait4Key_no_early_return_witness :
    (⟨4, (fun k r => if (k = 1 ∨ k = 2) ∧ r = 0 then 0xFE else 0xFF) 3⟩ : Keyboard).status
        = (fun k r => if (k = 1 ∨ k = 2) ∧ r = 0 then 0xFE else 0xFF) (4 - 1)
      ∧ (fun key (ks : Snapshot) => (((ks (key % 256) % 256) ^^^ 0xFF) &&& (key / 256)) != 0)
          0x0100
          (⟨4, (fun k r => if (k = 1 ∨ k = 2) ∧ r = 0 then 0xFE else 0xFF) 3⟩ : Keyboard).status
          = false
      ∧ ∃ j, (⟨0, fun _ => 0xFF⟩ : Keyboard).scans ≤ j ∧ j + 1 < 4
          ∧ (fun key (ks : Snapshot) => (((ks (key % 256) % 256) ^^^ 0xFF) &&& (key / 256)) != 0)
              0x0100 ((fun k r => if (k = 1 ∨ k = 2) ∧ r = 0 then 0xFE else 0xFF) j) = true :=
  Wait4Key_no_early_return
    (fun key ks => (((ks (key % 256) % 256) ^^^ 0xFF) &&& (key / 256)) != 0)
    (fun k r => if (k = 1 ∨ k = 2) ∧ r = 0 then 0xFE else 0xFF) 5 0x0100
    ⟨0, fun _ => 0xFF⟩ ⟨4, (fun k r => if (k = 1 ∨ k = 2) ∧ r = 0 then 0xFE else 0xFF) 3⟩ rfl

theorem waitAnyKey_safe (scan : Nat → Snapshot) : ∀ (fuel : Nat) (kb kb1 : Keyboard),
    waitAnyKey scan fuel kb = some kb1 → kb.scans < kb1.scans := by
  intro fuel
  induction fuel with
  | zero => intro kb kb1 h; simp [waitAnyKey] at h
  | succ fuel ih =>
    intro kb kb1 h
    unfold waitAnyKey at h
    simp only at h
    split at h
    · have := ih _ _ h
      simp only [cpct_scanKeyboard] at this
      omega
    · simp only [Option.some.injEq] at h
      subst h
      simp [cpct_scanKeyboard]

/-- In `RedefineKey`, the wait for the release of the key returned by `ReturnKeyPressed`
ends on a snapshot that shows that key not held. -/
theorem RedefineKey_released (isKeyPressed : Nat → Snapshot → Bool) (scan : Nat → Snapshot)
    (fuel : Nat) (info : Buffer) (kb kb2 : Keyboard) (ops : List DrawOp) (key : Nat)
    (h : RedefineKey isKeyPressed scan fuel info kb = some (ops, key, kb2)) :
    kb2.status = scan (kb2.scans - 1) ∧ isKeyPressed key kb2.status = false
      ∧ ∃ j, kb.scans < j ∧ j + 1 < kb2.scans ∧ isKeyPressed key (scan j) = true := by
  unfold RedefineKey at h
  split at h
  · simp at h
  · split at h
    · simp at h
    · next key1 kb1 hr =>
      split at h
      · simp at h
      · next kb3 hw =>
        simp only [Option.some.injEq, Prod.mk.injEq] at h
        obtain ⟨-, hk, hkb⟩ := h
        subst hk hkb
        obtain ⟨h1, h2, j, h3, h4, h5⟩ := Wait4Key_safe isKeyPressed scan fuel _ _ _ hw
        refine ⟨h1, h2, j, ?_, h4, h5⟩
        unfold ReturnKeyPressed at hr
        split at hr
        · simp at hr
        · next kbw hwait =>
          have hlt : kb.scans < kbw.scans := waitAnyKey_safe scan fuel kb kbw hwait
          split at hr
          · simp at hr
          · simp only [Option.some.injEq, Prod.mk.injEq] at hr
            obtain ⟨-, rfl⟩ := hr
            omega
          · simp only [Option.some.injEq, Prod.mk.injEq] at hr
            obtain ⟨-, rfl⟩ := hr
            omega

/-! ## Absolute value -/

/-- C19 (as the code behaves): for every signed 16-bit number other than -32768,
`Abs(number)` is the absolute value of `number`: it is non-negative, equals `number` when
`number ≥ 0` and `-number` otherwise. -/
theorem Abs_of_gt_min (number : Int) (h0 : -32768 < number) (h1 : number ≤ 32767) :
    0 ≤ Abs number ∧ (0 ≤ number → Abs number = number)
      ∧ (number < 0 → Abs number = -number) ∧ Abs number = |number| := by
  unfold Abs
  by_cases hn : number < 0
  · rw [if_pos hn, abs_of_neg hn]
    have : toI16 (number * -1) = -number := by unfold toI16; omega
    rw [this]
    exact ⟨by omega, fun h => by omega, fun _ => rfl, rfl⟩
  · rw [if_neg hn, abs_of_nonneg (by omega)]
    exact ⟨by omega, fun _ => rfl, fun h => absurd h hn, rfl⟩

theorem Abs_of_gt_min_witness :
    0 ≤ Abs (-32767) ∧ (0 ≤ (-32767 : Int) → Abs (-32767) = -32767)
      ∧ ((-32767 : Int) < 0 → Abs (-32767) = - (-32767)) ∧ Abs (-32767) = |(-32767 : Int)| :=
  Abs_of_gt_min (-32767) (by decide) (by decide)

/-- C19 fails as stated at the smallest `i16` value: the product `-32768 * -1` does not fit
in an `i16`, and `Abs(-32768)` is `-32768`, which is negative and is not `-number`. -/
theorem Abs_min_negative :
    Abs (-32768) = -32768 ∧ ¬ (0 ≤ Abs (-32768)) ∧ Abs (-32768) ≠ - (-32768) := by
  decide

/-! ## Turns of the main loop -/

/-- C18: for every counter value `c` in `[0, 350]`, the turn selected after the counter
update of the main loop is the successor modulo 3 of the turn selected before it, also
across the wrap from 350 to 0 and at the special case 174. -/
theorem mainLoopTurn_cycles (c : Int) (h0 : 0 ≤ c) (h1 : c ≤ 350) :
    mainLoopTurn (mainLoopAdvance c) = (mainLoopTurn c + 1) % 3
      ∧ mainLoopTurn c = c % 3 := by
  have hadv := mainLoopAdvance_of_range c h0 h1
  unfold mainLoopTurn
  rw [Int.tmod_eq_emod h0 (by decide), hadv]
  refine ⟨?_, rfl⟩
  split
  · next h => subst h; decide
  · rw [Int.tmod_eq_emod (by omega) (by decide)]
    omega

theorem mainLoopTurn_cycles_witness :
    mainLoopTurn (mainLoopAdvance 350) = (mainLoopTurn 350 + 1) % 3
      ∧ mainLoopTurn 350 = 350 % 3 :=
  mainLoopTurn_cycles 350 (by decide) (by decide)

/-! ## Start menu -/

theorem StartMenuBody_state (n : Nat) :
    (StartMenuBody ⟨(n + 254) % 255, ((n + 254) / 255) % 8⟩).1
      = ⟨(n + 255) % 255, ((n + 255) / 255) % 8⟩ := by
  unfold StartMenuBody
  have h : ((n + 254) % 255 + 1) % 256 = (n + 254) % 255 + 1 := by omega
  simp only [h]
  split
  · next h255 =>
    have hp : (((n + 254) / 255) % 8 + 1) % 256 = ((n + 254) / 255) % 8 + 1 := by omega
    simp only [hp]
    split
    · next h8 =>
      simp only [MenuState.mk.injEq]
      constructor <;> omega
    · next h8 =>
      simp only [MenuState.mk.injEq]
      constructor <;> omega
  · next h255 =>
    simp only [MenuState.mk.injEq]
    constructor <;> omega

/-- State of the loop of `StartMenu` after `n` iterations, in closed form. -/
theorem StartMenu_state (n : Nat) :
    StartMenu n = ⟨(n + 254) % 255, ((n + 254) / 255) % 8⟩ := by
  induction n with
  | zero => rfl
  | succ n ih =>
    unfold StartMenu at ih ⊢
    rw [Function.iterate_succ_apply', ih, StartMenuBody_state]

theorem StartMenuBody_redraw (n : Nat) :
    MenuCall.printStartMenu ∈ (StartMenuBody (StartMenu n)).2
      ↔ (StartMenu n).randSeed + 1 = 255 ∧ (StartMenu n).page = 0 := by
  unfold StartMenuBody
  rw [StartMenu_state]
  have h : ((n + 254) % 255 + 1) % 256 = (n + 254) % 255 + 1 := by omega
  simp only [h]
  split
  · next h255 =>
    by_cases hp : (n + 254) / 255 % 8 = 0
    · simp [hp, h255]
    · simp [hp]
  · next h255 =>
    simp [h255]

/-- C11: in the loop of `StartMenu`, from the state reached after any number `t0` of
iterations (`t0 = 0` is the initial state `randSeed = 254`, `page = 0`), exactly one of the
next 255 iterations changes the page counter, and that iteration leaves `randSeed = 0`. -/
theorem StartMenu_page_once_per_255 (t0 : Nat) :
    ∃ i, i < 255
      ∧ (StartMenu (t0 + i + 1)).page ≠ (StartMenu (t0 + i)).page
      ∧ (StartMenu (t0 + i + 1)).randSeed = 0
      ∧ ∀ j, j < 255 → (StartMenu (t0 + j + 1)).page ≠ (StartMenu (t0 + j)).page → j = i := by
  refine ⟨(255 - t0 % 255) % 255, by omega, ?_, ?_, ?_⟩
  · rw [StartMenu_state, StartMenu_state]
    simp only [ne_eq]
    omega
  · rw [StartMenu_state]
    simp only
    omega
  · intro j hj hne
    rw [StartMenu_state, StartMenu_state] at hne
    simp only [ne_eq] at hne
    omega

/-- C15: in the loop of `StartMenu` started from its initial state, after any number `n` of
iterations `randSeed ≤ 254` and `page ≤ 7`; an iteration that changes `page = 7` makes it 0;
and iteration number `n + 1` calls `PrintStartMenu` exactly when it finds `randSeed`
reaching 255 with `page = 0`, which happens exactly when `n` is a multiple of 2040: at the
first iteration and every 2040th iteration after it. -/
theorem StartMenu_bounds_and_redraw (n : Nat) :
    (StartMenu n).randSeed ≤ 254 ∧ (StartMenu n).page ≤ 7
      ∧ ((StartMenu n).page = 7 → (StartMenu (n + 1)).page ≠ 7 → (StartMenu (n + 1)).page = 0)
      ∧ (MenuCall.printStartMenu ∈ (StartMenuBody (StartMenu n)).2
          ↔ (StartMenu n).randSeed + 1 = 255 ∧ (StartMenu n).page = 0)
      ∧ (MenuCall.printStartMenu ∈ (StartMenuBody (StartMenu n)).2 ↔ n % 2040 = 0) := by
  refine ⟨?_, ?_, ?_, StartMenuBody_redraw n, ?_⟩
  · rw [StartMenu_state]; simp only; omega
  · rw [StartMenu_state]; simp only; omega
  · rw [StartMenu_state, StartMenu_state]; simp only; omega
  · rw [StartMenuBody_redraw, StartMenu_state]
    simp only
    omega

/-! ## Characters written by `Itoa` -/

/-- C13: for every 16-bit unsigned value and every base `2 ≤ base ≤ 36`, every character of
the string written by `Itoa` is a digit of the alphabet `0-9` then `a-z` whose value is
below the base, and none is the sign character `-` (code 45); this includes the values from
32768 on, for which the first `tmp_value` of the loop is negative as a 16-bit `int`. -/
theorem Itoa_digits_no_sign (v : Nat) (base : Int) (fuel : Nat) (buf : Buffer)
    (hv : v < 65536) (hb2 : 2 ≤ base) (hb : base ≤ 36) (hfuel : 16 ≤ fuel)
    (hsize : 17 ≤ buf.size) :
    ∃ buf1, Itoa fuel v buf base = some buf1
      ∧ (∀ c ∈ buf1.cstring, c ≠ 45 ∧ ∃ d, d < base.toNat ∧ digitValue c = some d)
      ∧ (32768 ≤ v → toI16 (v : Int) < 0) := by
  obtain ⟨b, rfl⟩ := Int.eq_ofNat_of_zero_le (by omega : 0 ≤ base)
  have hb2n : 2 ≤ b := by omega
  have hbn : b ≤ 36 := by omega
  have hlen := itoaLE_length_le b v hb2n hv
  obtain ⟨buf1, he, -, hc⟩ := Itoa_cstring v b fuel buf hv hb2n hbn (by omega) (by omega)
  refine ⟨buf1, he, ?_, ?_⟩
  · intro c hcm
    rw [hc, List.mem_map] at hcm
    obtain ⟨d, hd, rfl⟩ := hcm
    have hdb : d < b := itoaLE_lt_base b v d hb2n (List.mem_reverse.mp hd)
    refine ⟨?_, d, by simpa using hdb, digitValue_digitChar d (by omega)⟩
    unfold digitChar
    split <;> omega
  · intro h
    unfold toI16
    omega

theorem Itoa_digits_no_sign_witness :
    ∃ buf1, Itoa 16 65535 ⟨17, fun _ => 7⟩ 16 = some buf1
      ∧ (∀ c ∈ buf1.cstring, c ≠ 45 ∧ ∃ d, d < (16 : Int).toNat ∧ digitValue c = some d)
      ∧ (32768 ≤ 65535 → toI16 ((65535 : Nat) : Int) < 0) :=
  Itoa_digits_no_sign 65535 16 16 ⟨17, fun _ => 7⟩ (by decide) (by decide) (by decide)
    (by decide) (by decide)

/-! ## Text rendering -/

/-- The drawing calls of `PrintTextLoop` from position `pos` up to the terminator found `m`
bytes further. -/
theorem PrintTextLoop_spec (txt : Buffer) (x y prevDel : Nat) :
    ∀ (m fuel pos : Nat), m < fuel → pos + m < txt.size → pos + m < 256 →
    (∀ k, k < m → txt.byte (pos + k) ≠ 0) → txt.byte (pos + m) = 0 →
    PrintTextLoop txt x y prevDel fuel pos (txt.byte pos) =
      some ((List.range' pos m).flatMap (fun k =>
        drawGlyph prevDel (txt.byte k) (cpct_getScreenPtr (((k : Int) * FNT_W) + x) y))) := by
  intro m
  induction m with
  | zero =>
    intro fuel pos hf _ _ _ hz
    cases fuel with
    | zero => omega
    | succ fuel =>
      simp only [Nat.add_zero] at hz
      unfold PrintTextLoop
      rw [hz]; rfl
  | succ m ih =>
    intro fuel pos hf hs h256 hnz hz
    cases fuel with
    | zero => omega
    | succ fuel =>
      have h0 := hnz 0 (by omega)
      simp only [Nat.add_zero] at h0
      have hpos : (pos + 1) % 256 = pos + 1 := Nat.mod_eq_of_lt (by omega)
      unfold PrintTextLoop
      simp only [ne_eq, h0, not_false_eq_true, if_true, hpos]
      rw [Buffer.load_eq_some txt (pos + 1) (by omega)]
      simp only
      rw [ih fuel (pos + 1) (by omega) (by omega) (by omega)
        (fun k hk => by
          have := hnz (k + 1) (by omega)
          rwa [← Nat.add_assoc, Nat.add_right_comm] at this)
        (by rw [← hz]; congr 1; omega)]
      simp [List.range'_succ]

/-- The drawing calls of `PrintText` on a text of `n ≤ 255` characters followed by the
terminator: one `drawGlyph` per character, the character at position `k` at column
`k * FNT_W + x`. -/
theorem PrintText_spec (fuel n : Nat) (txt : Buffer) (x y prevDel : Nat) (hn : n ≤ 255)
    (hsize : n < txt.size) (hnz : ∀ k, k < n → txt.byte k ≠ 0) (hz : txt.byte n = 0)
    (hfuel : n < fuel) :
    PrintText fuel txt x y prevDel =
      some ((List.range' 0 n).flatMap (fun k =>
        drawGlyph prevDel (txt.byte k) (cpct_getScreenPtr (((k : Int) * FNT_W) + x) y))) := by
  unfold PrintText
  rw [Buffer.load_eq_some txt 0 (by omega)]
  simp only
  exact PrintTextLoop_spec txt x y prevDel n fuel 0 hfuel (by omega) (by omega)
    (fun k hk => by rw [Nat.zero_add]; exact hnz k hk) (by rw [Nat.zero_add]; exact hz)

theorem flatMap_drawGlyph_zero (L : List Nat) (c : Nat → Nat) (q : Nat → ScreenPtr) :
    L.flatMap (fun k => drawGlyph 0 (c k) (q k))
      = L.map (fun k => DrawOp.spriteMasked ((c k : Int) - 48) (q k) FNT_W FNT_H) := by
  induction L with
  | nil => rfl
  | cons k L ih =>
    simp only [List.flatMap_cons, List.map_cons, ih]
    rfl

theorem flatMap_drawGlyph_noBoxFill (L : List Nat) (c : Nat → Nat) (q : Nat → ScreenPtr) :
    noBoxFill (L.flatMap (fun k => drawGlyph 0 (c k) (q k))) := by
  rw [flatMap_drawGlyph_zero]
  intro op hop p a b w h heq
  rw [List.mem_map] at hop
  obtain ⟨k, -, hk⟩ := hop
  rw [heq] at hk
  exact DrawOp.noConfusion hk

theorem flatMap_drawGlyph_erased (L : List Nat) (c : Nat → Nat) (q : Nat → ScreenPtr)
    (prevDel : Nat) (hp : prevDel ≠ 0) :
    blitsPrecededByErase (L.flatMap (fun k => drawGlyph prevDel (c k) (q k))) := by
  induction L with
  | nil =>
    intro i g p w h hi
    simp at hi
  | cons k L ih =>
    intro i g p w h hi
    have hcons : (k :: L).flatMap (fun k => drawGlyph prevDel (c k) (q k))
        = DrawOp.solidBox (q k) BG_COLOR BG_COLOR FNT_W FNT_H
          :: DrawOp.spriteMasked ((c k : Int) - 48) (q k) FNT_W FNT_H
          :: L.flatMap (fun k => drawGlyph prevDel (c k) (q k)) := by
      simp [List.flatMap_cons, drawGlyph, hp]
    rw [hcons] at hi ⊢
    match i, hi with
    | 0, hi => simp at hi
    | 1, hi =>
      simp only [List.getElem?_cons_succ, List.getElem?_cons_zero, Option.some.injEq,
        DrawOp.spriteMasked.injEq] at hi
      obtain ⟨-, hq, -, -⟩ := hi
      exact ⟨0, rfl, by rw [← hq]; rfl⟩
    | i + 2, hi =>
      simp only [List.getElem?_cons_succ] at hi
      obtain ⟨j, hj, hbox⟩ := ih i g p w h hi
      exact ⟨j + 2, by omega, by simpa using hbox⟩

theorem mem_flatMap_drawGlyph_ptr (L : List Nat) (c : Nat → Nat) (q : Nat → ScreenPtr)
    (prevDel : Nat) (op : DrawOp)
    (h : op ∈ L.flatMap (fun k => drawGlyph prevDel (c k) (q k))) :
    ∃ k, k ∈ L ∧ op.ptr = q k := by
  rw [List.mem_flatMap] at h
  obtain ⟨k, hk, hop⟩ := h
  refine ⟨k, hk, ?_⟩
  unfold drawGlyph at hop
  split at hop
  · simp only [List.singleton_append, List.mem_cons, List.mem_singleton, List.not_mem_nil,
      or_false] at hop
    rcases hop with h1 | h1 <;> rw [h1] <;> rfl
  · simp only [List.nil_append, List.mem_singleton] at hop
    rw [hop]; rfl

/-- The function `PrintStartMenu` returns: it issues the screen clear, the two logo sprites and the
`11 + 9` glyph blits of its two texts. -/
theorem PrintStartMenu_returns (G_LOGO_0_W : Nat) :
    (PrintStartMenu 12 G_LOGO_0_W).map List.length = some 23 := by
  rfl

/-- C12 (as the code behaves): for every text of `n ≤ 255` characters followed by the
terminator, `PrintText(text, x, y, 0)` returns and issues exactly `n` drawing calls, all
masked glyph blits (no box fill), the `k`-th at byte column `(x + 3k) mod 256` (the column
argument of `cpct_getScreenPtr` is a `u8`) and row `y`, with glyph table index
`text[k] - 48`.  In particular `PrintText("1@@@MISSION", 10, 50, 0)` blits 11 glyph cells
and its 2nd to 4th characters use glyph index 16. -/
theorem PrintText_blits (fuel n : Nat) (txt : Buffer) (x y : Nat) (hy : y < 256)
    (hn : n ≤ 255) (hsize : n < txt.size) (hnz : ∀ k, k < n → txt.byte k ≠ 0)
    (hz : txt.byte n = 0) (hfuel : n < fuel) :
    (∃ ops, PrintText fuel txt x y 0 = some ops ∧ ops.length = n
      ∧ ∀ k, k < n → ops[k]? = some (DrawOp.spriteMasked ((txt.byte k : Int) - 48)
          ⟨(x + 3 * k) % 256, y⟩ FNT_W FNT_H))
    ∧ PrintText 12 (cString "1@@@MISSION") 10 50 0 = some
        [DrawOp.spriteMasked 1 ⟨10, 50⟩ 3 8, DrawOp.spriteMasked 16 ⟨13, 50⟩ 3 8,
         DrawOp.spriteMasked 16 ⟨16, 50⟩ 3 8, DrawOp.spriteMasked 16 ⟨19, 50⟩ 3 8,
         DrawOp.spriteMasked 29 ⟨22, 50⟩ 3 8, DrawOp.spriteMasked 25 ⟨25, 50⟩ 3 8,
         DrawOp.spriteMasked 35 ⟨28, 50⟩ 3 8, DrawOp.spriteMasked 35 ⟨31, 50⟩ 3 8,
         DrawOp.spriteMasked 25 ⟨34, 50⟩ 3 8, DrawOp.spriteMasked 31 ⟨37, 50⟩ 3 8,
         DrawOp.spriteMasked 30 ⟨40, 50⟩ 3 8] := by
  refine ⟨⟨_, PrintText_spec fuel n txt x y 0 hn hsize hnz hz hfuel, ?_, ?_⟩, by decide⟩
  · rw [flatMap_drawGlyph_zero]; simp
  · intro k hk
    rw [flatMap_drawGlyph_zero, List.getElem?_map, List.getElem?_range' 0 1 hk]
    simp only [Option.map_some', Option.some.injEq, Nat.zero_add, Nat.one_mul,
      DrawOp.spriteMasked.injEq, true_and, and_true]
    simp only [cpct_getScreenPtr, toU8, FNT_W, ScreenPtr.mk.injEq]
    constructor <;> omega

theorem PrintText_blits_witness :
    (∃ ops, PrintText 10 (cString "NEKROFAGE") 13 190 0 = some ops ∧ ops.length = 9
      ∧ ∀ k, k < 9 → ops[k]? = some (DrawOp.spriteMasked
          (((cString "NEKROFAGE").byte k : Int) - 48) ⟨(13 + 3 * k) % 256, 190⟩ FNT_W FNT_H))
    ∧ PrintText 12 (cString "1@@@MISSION") 10 50 0 = some
        [DrawOp.spriteMasked 1 ⟨10, 50⟩ 3 8, DrawOp.spriteMasked 16 ⟨13, 50⟩ 3 8,
         DrawOp.spriteMasked 16 ⟨16, 50⟩ 3 8, DrawOp.spriteMasked 16 ⟨19, 50⟩ 3 8,
         DrawOp.spriteMasked 29 ⟨22, 50⟩ 3 8, DrawOp.spriteMasked 25 ⟨25, 50⟩ 3 8,
         DrawOp.spriteMasked 35 ⟨28, 50⟩ 3 8, DrawOp.spriteMasked 35 ⟨31, 50⟩ 3 8,
         DrawOp.spriteMasked 25 ⟨34, 50⟩ 3 8, DrawOp.spriteMasked 31 ⟨37, 50⟩ 3 8,
         DrawOp.spriteMasked 30 ⟨40, 50⟩ 3 8] :=
  PrintText_blits 10 9 (cString "NEKROFAGE") 13 190 (by decide) (by decide) (by decide)
    (by intro k hk; interval_cases k <;> decide) (by decide) (by decide)

/-- C12 fails as stated when `x + 3k` exceeds 255: `PrintText("AB", 254, 0, 0)` blits its
second character at byte column 1, not at column `254 + 3 = 257`. -/
theorem PrintText_column_wraps :
    PrintText 3 (cString "AB") 254 0 0
        = some [DrawOp.spriteMasked 17 ⟨254, 0⟩ 3 8, DrawOp.spriteMasked 18 ⟨1, 0⟩ 3 8]
    ∧ ¬ ∃ ops, PrintText 3 (cString "AB") 254 0 0 = some ops
        ∧ ops[1]? = some (DrawOp.spriteMasked (((cString "AB").byte 1 : Int) - 48)
            ⟨254 + 3 * 1, 0⟩ FNT_W FNT_H) := by
  have h : PrintText 3 (cString "AB") 254 0 0
      = some [DrawOp.spriteMasked 17 ⟨254, 0⟩ 3 8, DrawOp.spriteMasked 18 ⟨1, 0⟩ 3 8] := by
    decide
  refine ⟨h, ?_⟩
  rintro ⟨ops, ho, h1⟩
  rw [h] at ho
  cases ho
  revert h1
  decide

/-! ## Erasing before drawing, decimal rendering -/

/-- C14: `PrintNumber` (on a 16-bit value) and `PrintText` (on a text of `n ≤ 255` characters
followed by the terminator) return, and with a non-zero `prevDel` every glyph blit they
issue comes right after a solid box fill of one glyph cell (3 bytes by 8 lines) in the
background colour at the same screen location; with `prevDel = 0` they issue no box fill. -/
theorem prevDel_erases_each_cell (fuel : Nat) (stack : Nat → Nat) (v w x y prevDel : Nat)
    (n : Nat) (txt : Buffer) (tx ty : Nat) (hv : v < 65536) (hfuel : 6 ≤ fuel)
    (hn : n ≤ 255) (hsize : n < txt.size) (hnz : ∀ k, k < n → txt.byte k ≠ 0)
    (hz : txt.byte n = 0) (hfuelT : n < fuel) :
    ∃ opsN opsT, PrintNumber fuel stack v w x y prevDel = some opsN
      ∧ PrintText fuel txt tx ty prevDel = some opsT
      ∧ (prevDel ≠ 0 → blitsPrecededByErase opsN ∧ blitsPrecededByErase opsT)
      ∧ (prevDel = 0 → noBoxFill opsN ∧ noBoxFill opsT) := by
  obtain ⟨num, -, -, hN⟩ := PrintNumber_spec fuel stack v w x y prevDel hv hfuel
  have hT := PrintText_spec fuel n txt tx ty prevDel hn hsize hnz hz hfuelT
  refine ⟨_, _, hN, hT, ?_, ?_⟩
  · intro hp
    exact ⟨flatMap_drawGlyph_erased _ _ _ prevDel hp, flatMap_drawGlyph_erased _ _ _ prevDel hp⟩
  · intro hp
    subst hp
    exact ⟨flatMap_drawGlyph_noBoxFill _ _ _, flatMap_drawGlyph_noBoxFill _ _ _⟩

theorem prevDel_erases_each_cell_witness :
    ∃ opsN opsT, PrintNumber 12 (fun _ => 0) 1234 5 72 185 1 = some opsN
      ∧ PrintText 12 (cString "1@@@MISSION") 28 120 1 = some opsT
      ∧ (1 ≠ 0 → blitsPrecededByErase opsN ∧ blitsPrecededByErase opsT)
      ∧ (1 = 0 → noBoxFill opsN ∧ noBoxFill opsT) :=
  prevDel_erases_each_cell 12 (fun _ => 0) 1234 5 72 185 1 11 (cString "1@@@MISSION") 28 120
    (by decide) (by decide) (by decide) (by decide)
    (by intro k hk; interval_cases k <;> decide) (by decide) (by decide)

/-- The characters written by `Itoa` in base 10 into the 6-byte array of `PrintNumber`: the
character at position `k` is `'0' + d` for the `k`-th decimal digit `d` of the value. -/
theorem Itoa_decimal_bytes (fuel : Nat) (stack : Nat → Nat) (v : Nat) (hv : v < 65536)
    (hfuel : 6 ≤ fuel) :
    ∃ txt, Itoa fuel v ⟨6, stack⟩ 10 = some txt ∧ txt.size = 6
      ∧ txt.cstring = (itoaLE 10 v).reverse.map digitChar
      ∧ txt.byte (itoaLE 10 v).length = 0
      ∧ ∀ k, k < (itoaLE 10 v).length →
          ∃ d, d < 10 ∧ (itoaLE 10 v).reverse[k]? = some d ∧ txt.byte k = 48 + d := by
  have hlen := itoaLE_length_le_ten v hv
  obtain ⟨txt, he, hs, hd, hz, -⟩ :=
    Itoa_spec v 10 fuel ⟨6, stack⟩ hv (by omega) (by omega) (by omega) (by simp only; omega)
  obtain ⟨txt2, he2, -, hc⟩ :=
    Itoa_cstring v 10 fuel ⟨6, stack⟩ hv (by omega) (by omega) (by omega) (by simp only; omega)
  have heq : txt2 = txt := by
    have := he2.symm.trans he
    exact Option.some.inj this
  subst heq
  refine ⟨txt2, he, hs, hc, hz, ?_⟩
  intro k hk
  have h1 := hd k hk
  cases hg : (itoaLE 10 v).reverse[k]? with
  | none => rw [hg] at h1; simp at h1
  | some d =>
    rw [hg] at h1
    simp only [Option.map_some', Option.some.injEq] at h1
    have hd10 : d < 10 :=
      itoaLE_lt_base 10 v d (by omega) (List.mem_reverse.mp (List.getElem?_mem hg))
    refine ⟨d, hd10, rfl, ?_⟩
    rw [← h1]; unfold digitChar; rw [if_pos hd10]

/-- C16: for every 16-bit unsigned value, `Itoa(value, txt, 10)` on the 6-byte array of
`PrintNumber` returns without any access outside the array, having written between 1 and
5 characters, all in `'0'..'9'`, followed by the terminator; and every glyph table index
`nAux - 48` used by `PrintNumber` lies in `[0, 9]`. -/
theorem PrintNumber_buffer_and_glyphs_safe (fuel : Nat) (stack : Nat → Nat)
    (v w x y prevDel : Nat) (hv : v < 65536) (hfuel : 6 ≤ fuel) :
    ∃ txt ops, Itoa fuel v ⟨6, stack⟩ 10 = some txt ∧ txt.size = 6
      ∧ 1 ≤ txt.cstring.length ∧ txt.cstring.length ≤ 5
      ∧ (∀ c ∈ txt.cstring, 48 ≤ c ∧ c ≤ 57)
      ∧ txt.byte txt.cstring.length = 0
      ∧ PrintNumber fuel stack v w x y prevDel = some ops
      ∧ ∀ gp ∈ glyphBlits ops, 0 ≤ gp.1 ∧ gp.1 ≤ 9 := by
  have hlen := itoaLE_length_le_ten v hv
  have hpos := itoaLE_length_pos 10 v
  obtain ⟨txt, he, hs, hc, hz, hbytes⟩ := Itoa_decimal_bytes fuel stack v hv hfuel
  obtain ⟨txt2, he2, -, hN⟩ := PrintNumber_spec fuel stack v w x y prevDel hv hfuel
  have heq : txt2 = txt := Option.some.inj (he2.symm.trans he)
  subst heq
  have hcl : txt2.cstring.length = (itoaLE 10 v).length := by rw [hc]; simp
  refine ⟨txt2, _, he, hs, by omega, by omega, ?_, by rw [hcl]; exact hz, hN, ?_⟩
  · intro c hcm
    rw [hc, List.mem_map] at hcm
    obtain ⟨d, hd, rfl⟩ := hcm
    have hd10 : d < 10 := itoaLE_lt_base 10 v d (by omega) (List.mem_reverse.mp hd)
    unfold digitChar
    rw [if_pos hd10]
    omega
  · intro gp hgp
    rw [glyphBlits_flatMap, List.mem_map] at hgp
    obtain ⟨k, hk, rfl⟩ := hgp
    rw [List.mem_range'_1] at hk
    obtain ⟨d, hd10, -, hb⟩ := hbytes k (by omega)
    simp only [hb]
    omega

theorem PrintNumber_buffer_and_glyphs_safe_witness :
    ∃ txt ops, Itoa 6 65535 ⟨6, fun _ => 255⟩ 10 = some txt ∧ txt.size = 6
      ∧ 1 ≤ txt.cstring.length ∧ txt.cstring.length ≤ 5
      ∧ (∀ c ∈ txt.cstring, 48 ≤ c ∧ c ≤ 57)
      ∧ txt.byte txt.cstring.length = 0
      ∧ PrintNumber 6 (fun _ => 255) 65535 5 0 0 1 = some ops
      ∧ ∀ gp ∈ glyphBlits ops, 0 ≤ gp.1 ∧ gp.1 ≤ 9 :=
  PrintNumber_buffer_and_glyphs_safe 6 (fun _ => 255) 65535 5 0 0 1 (by decide) (by decide)

/-- C17: for every 16-bit unsigned `num` with `d` decimal digits, every field width
`len ≥ d` and every `x` with `x + 3 * len ≤ 255`, `PrintNumber(num, len, x, y, prevDel)`
issues exactly `d` glyph blits, the `k`-th digit at byte column `x + (len - d + k) * 3` and
row `y`; every drawing call lies at or after column `x + (len - d) * 3` on row `y`, so the
`len - d` leading cells of the field are skipped, not drawn. -/
theorem PrintNumber_field_layout (fuel : Nat) (stack : Nat → Nat)
    (num len x y prevDel : Nat) (hv : num < 65536) (hy : y < 256) (hfuel : 6 ≤ fuel)
    (hlen : (decimalDigits num).length ≤ len) (hx : x + 3 * len ≤ 255) :
    ∃ ops, PrintNumber fuel stack num len x y prevDel = some ops
      ∧ (glyphBlits ops).length = (decimalDigits num).length
      ∧ (∀ k, (glyphBlits ops)[k]? = (decimalDigits num)[k]?.map (fun (dgt : Nat) =>
          ((dgt : Int),
            (⟨x + (len - (decimalDigits num).length + k) * 3, y⟩ : ScreenPtr))))
      ∧ ∀ op ∈ ops, x + (len - (decimalDigits num).length) * 3 ≤ op.ptr.x
          ∧ op.ptr.y = y := by
  obtain ⟨txt, he, -, -, -, hbytes⟩ := Itoa_decimal_bytes fuel stack num hv hfuel
  obtain ⟨txt2, he2, -, hN⟩ := PrintNumber_spec fuel stack num len x y prevDel hv hfuel
  have heq : txt2 = txt := Option.some.inj (he2.symm.trans he)
  subst heq
  rw [decimalDigits_eq] at hlen ⊢
  simp only [List.length_reverse] at hlen ⊢
  have hcol : ∀ k, k < (itoaLE 10 num).length →
      cpct_getScreenPtr
        (((toU8 ((len : Int) - ((itoaLE 10 num).length : Nat)) : Nat) + k) * FNT_W + x) y
        = ⟨x + (len - (itoaLE 10 num).length + k) * 3, y⟩ := by
    intro k hk
    simp only [cpct_getScreenPtr, toU8, FNT_W, ScreenPtr.mk.injEq]
    constructor <;> omega
  refine ⟨_, hN, ?_, ?_, ?_⟩
  · rw [glyphBlits_flatMap]; simp
  · intro k
    rw [glyphBlits_flatMap, List.getElem?_map]
    by_cases hk : k < (itoaLE 10 num).length
    · rw [List.getElem?_range' 0 1 hk]
      obtain ⟨d, hd10, hg, hb⟩ := hbytes k hk
      rw [hg]
      simp only [Option.map_some', Option.some.injEq, Nat.zero_add, Nat.one_mul]
      rw [hb, hcol k hk]
      refine Prod.ext ?_ rfl
      simp only
      omega
    · rw [List.getElem?_eq_none (by simpa using hk),
        List.getElem?_eq_none (by simpa using hk)]
      rfl
  · intro op hop
    obtain ⟨k, hk, hptr⟩ := mem_flatMap_drawGlyph_ptr _ _ _ prevDel op hop
    rw [List.mem_range'_1] at hk
    rw [hptr, hcol k (by omega)]
    simp only
    exact ⟨by omega, trivial⟩

theorem PrintNumber_field_layout_witness :
    ∃ ops, PrintNumber 6 (fun _ => 0) 42 5 72 185 1 = some ops
      ∧ (glyphBlits ops).length = (decimalDigits 42).length
      ∧ (∀ k, (glyphBlits ops)[k]? = (decimalDigits 42)[k]?.map (fun (dgt : Nat) =>
          ((dgt : Int),
            (⟨72 + (5 - (decimalDigits 42).length + k) * 3, 185⟩ : ScreenPtr))))
      ∧ ∀ op ∈ ops, 72 + (5 - (decimalDigits 42).length) * 3 ≤ op.ptr.x
          ∧ op.ptr.y = 185 :=
  PrintNumber_field_layout 6 (fun _ => 0) 42 5 72 185 1 (by decide) (by decide) (by decide)
    (by simp [decimalDigits]) (by decide)

end Amstrad
